/-
Verification of core logic of the cheminfo/glycans repository.

This file gives a shallow embedding, in Lean 4, of:
  * the bounded worker dispatcher `withConcurrencyLimit`
    (src/benchmarkMultiCandidates/utils/fragmentation/fragmentMassesParallel.ts),
  * the DWAR reaction-rule filter `getPositiveIonizationLabels` /
    `filterDwarByIonization` (src/benchmark/utils/dwar/filterDwarIonization.ts),
  * the fragmentation-tree precursor/subtree extraction
    (`findPrecursorNodes`, `collectDescendantNodes`, `buildDescendantNodeSet`,
    `extractMasses` from the quickMs3 script),
  * the ranking logic (`solutionRank` of the multi-candidate benchmark script,
    `pickBest` of printRanks.ts),
and proves the specified properties about these embeddings.
-/
import Mathlib

set_option maxHeartbeats 1000000

/-! # Part 1: the bounded worker dispatcher

`withConcurrencyLimit` (fragmentMassesParallel.ts, lines 40-58; identically in
the per-adduct variant) is:

```ts
async function withConcurrencyLimit<T>(
  tasks: Array<() => Promise<T>>, limit: number): Promise<T[]> {
  const results: T[] = new Array<T>(tasks.length);
  let nextIndex = 0;
  async function lane(): Promise<void> {
    while (nextIndex < tasks.length) {
      const i = nextIndex++;
      results[i] = await tasks[i]!();
    }
  }
  await Promise.all(
    Array.from({ length: Math.min(limit, tasks.length) }, () => lane()));
  return results;
}
```

We model its execution as a state machine.  A task is modelled by its eventual
settlement, `Except ε α` (`.ok v` for a promise that fulfills with `v`,
`.error e` for one that rejects with `e`; a worker that exits abnormally
rejects, fragmentMassesParallel.ts lines 118-127).  JavaScript runs each lane
synchronously up to its `await`; interleaving happens only at `await` points,
in an order determined by when the awaited promises settle.  A *schedule* (the
completion-time jitter) is the sequence of lane indices whose awaited task
settles next; one `step` performs everything the resumed lane does
synchronously up to its next suspension: write `results[i]`, re-check the
shared counter, claim the next index and start the next task (or finish).
`Promise.all` creates `min(limit, tasks.length)` lanes and runs each to its
first `await` in order, so lane `j` claims index `j`; it settles with the
first rejection if any, else with the results array once every lane finished.
-/

deriving instance DecidableEq for Except

namespace Dispatcher

/-- What one execution lane is currently doing: awaiting the task it claimed,
finished (the shared counter was exhausted), or stopped by a rejection. -/
inductive LaneState where
  | running (i : Nat)
  | done
  | failed
deriving DecidableEq, Repr

/-- The dispatcher state: the shared `nextIndex` counter, the pre-sized
result array (`none` = not yet written), the lanes, and the reason of the
first rejection if one happened (what `Promise.all` rejects with). -/
structure DState (α ε : Type) where
  nextIndex : Nat
  results : List (Option α)
  lanes : List LaneState
  firstErr : Option ε
deriving DecidableEq, Repr

/-- `Math.min(limit, tasks.length)`: the number of lanes created. -/
def numLanes (limit n : Nat) : Nat := min limit n

/-- State after the synchronous part of `Promise.all(Array.from(...))`:
each of the `min(limit, n)` lanes has run to its first `await`, lane `j`
having claimed index `j` from the shared counter. -/
def initState (α ε : Type) (n limit : Nat) : DState α ε :=
  { nextIndex := numLanes limit n
    results := List.replicate n none
    lanes := (List.range (numLanes limit n)).map LaneState.running
    firstErr := none }

/-- The task lane `j` awaits settles: on fulfillment the lane writes
`results[i]`, re-checks `nextIndex < tasks.length`, claims the next index or
finishes; on rejection the lane's promise rejects (recorded in `firstErr` if
it is the first rejection).  A `j` that does not denote an awaiting lane is a
no-op (no such event can occur). -/
def step {α ε : Type} (tasks : List (Except ε α)) (σ : DState α ε) (j : Nat) :
    DState α ε :=
  match σ.lanes[j]? with
  | some (.running i) =>
    match tasks[i]? with
    | some (.ok v) =>
      let results := σ.results.set i (some v)
      if σ.nextIndex < tasks.length then
        { nextIndex := σ.nextIndex + 1
          results := results
          lanes := σ.lanes.set j (.running σ.nextIndex)
          firstErr := σ.firstErr }
      else
        { σ with results := results, lanes := σ.lanes.set j .done }
    | some (.error e) =>
      { σ with lanes := σ.lanes.set j .failed,
               firstErr := σ.firstErr.orElse fun _ => some e }
    | none => σ
  | _ => σ

/-- Run the dispatcher under a given completion schedule. -/
def run {α ε : Type} (tasks : List (Except ε α)) (limit : Nat)
    (sched : List Nat) : DState α ε :=
  sched.foldl (step tasks) (initState α ε tasks.length limit)

/-- Every lane's promise has settled (the `Promise.all` is settled). -/
def Finished {α ε : Type} (σ : DState α ε) : Prop :=
  ∀ l ∈ σ.lanes, l = LaneState.done ∨ l = LaneState.failed

instance {α ε : Type} (σ : DState α ε) : Decidable (Finished σ) :=
  List.decidableBAll _ σ.lanes

/-- What the `withConcurrencyLimit` call settles with: the first rejection
reason, or the completed results array. -/
def finalResult {α ε : Type} (σ : DState α ε) : Except ε (List α) :=
  match σ.firstErr with
  | some e => .error e
  | none => .ok σ.results.reduceOption

/-- A task settlement that is a fulfillment. -/
def isOk {α ε : Type} : Except ε α → Bool
  | .ok _ => true
  | .error _ => false

/-- Number of tasks currently in flight (lanes awaiting a task). -/
def inFlight {α ε : Type} (σ : DState α ε) : Nat :=
  σ.lanes.countP fun l => match l with | .running _ => true | _ => false

/-- The dispatcher invariant, preserved by every step. -/
structure Inv {α ε : Type} (tasks : List (Except ε α)) (limit : Nat)
    (σ : DState α ε) : Prop where
  results_len : σ.results.length = tasks.length
  lanes_len : σ.lanes.length = numLanes limit tasks.length
  next_le : σ.nextIndex ≤ tasks.length
  running_lt : ∀ (j i : Nat), σ.lanes[j]? = some (LaneState.running i) → i < σ.nextIndex
  running_inj : ∀ (j₁ j₂ i : Nat), σ.lanes[j₁]? = some (LaneState.running i) →
    σ.lanes[j₂]? = some (LaneState.running i) → j₁ = j₂
  results_ok : ∀ (i : Nat) (v : α), σ.results[i]? = some (some v) → tasks[i]? = some (.ok v)
  claimed : σ.firstErr = none → ∀ (i : Nat), i < σ.nextIndex →
    (∃ (j : Nat), σ.lanes[j]? = some (LaneState.running i)) ∨
      (∃ v, σ.results[i]? = some (some v) ∧ tasks[i]? = some (.ok v))
  no_failed : σ.firstErr = none → ∀ (j : Nat), σ.lanes[j]? ≠ some LaneState.failed
  err_src : ∀ (e : ε), σ.firstErr = some e → ∃ (i : Nat), tasks[i]? = some (.error e)
  done_next : (∃ (j : Nat), σ.lanes[j]? = some LaneState.done) → tasks.length ≤ σ.nextIndex

theorem init_lanes_getElem? {α ε : Type} (n limit j : Nat) :
    (initState α ε n limit).lanes[j]? =
      if j < numLanes limit n then some (LaneState.running j) else none := by
  simp only [initState, List.getElem?_map]
  split
  · rw [List.getElem?_range (by assumption)]
    rfl
  · rw [List.getElem?_eq_none (by simpa using by omega)]
    rfl

theorem inv_init {α ε : Type} (tasks : List (Except ε α)) (limit : Nat) :
    Inv tasks limit (initState α ε tasks.length limit) := by
  constructor
  · simp [initState]
  · simp [initState]
  · simp [initState, numLanes]
  · intro j i h
    rw [init_lanes_getElem?] at h
    split at h
    · cases h
      simpa [initState] using by assumption
    · cases h
  · intro j₁ j₂ i h₁ h₂
    rw [init_lanes_getElem?] at h₁ h₂
    split at h₁ <;> cases h₁
    split at h₂ <;> cases h₂
    rfl
  · intro i v h
    simp only [initState, List.getElem?_replicate] at h
    split at h <;> simp_all
  · intro _ i hi
    refine Or.inl ⟨i, ?_⟩
    rw [init_lanes_getElem?]
    simp only [initState] at hi
    simp [hi]
  · intro _ j h
    rw [init_lanes_getElem?] at h
    split at h <;> simp_all
  · intro e h
    simp [initState] at h
  · rintro ⟨j, h⟩
    rw [init_lanes_getElem?] at h
    split at h <;> simp_all

theorem inv_step {α ε : Type} {tasks : List (Except ε α)} {limit : Nat}
    {σ : DState α ε} (hσ : Inv tasks limit σ) (j : Nat) :
    Inv tasks limit (step tasks σ j) := by
  rcases hlj : σ.lanes[j]? with _ | l
  · simpa [step, hlj] using hσ
  have hjlen : j < σ.lanes.length := by
    rcases List.getElem?_eq_some_iff.mp hlj with ⟨h, _⟩
    exact h
  rcases l with i | _ | _
  rotate_left
  · simpa [step, hlj] using hσ
  · simpa [step, hlj] using hσ
  have hi_next : i < σ.nextIndex := hσ.running_lt j i hlj
  have hi_n : i < tasks.length := lt_of_lt_of_le hi_next hσ.next_le
  have hi_res : i < σ.results.length := by rw [hσ.results_len]; exact hi_n
  have hti : tasks[i]? = some tasks[i] := List.getElem?_eq_getElem hi_n
  rcases htv : tasks[i] with e | v
  · -- the awaited task rejects: the lane fails and the rejection is recorded
    rw [htv] at hti
    simp only [step, hlj, hti]
    constructor <;> (try dsimp only)
    · exact hσ.results_len
    · simpa using hσ.lanes_len
    · exact hσ.next_le
    · intro j' i' h'
      by_cases hjj : j = j'
      · subst hjj
        rw [List.getElem?_set_self hjlen] at h'
        cases h'
      · rw [List.getElem?_set_ne hjj] at h'
        exact hσ.running_lt j' i' h'
    · intro j₁ j₂ i' h₁ h₂
      by_cases hj1 : j = j₁
      · subst hj1
        rw [List.getElem?_set_self hjlen] at h₁
        cases h₁
      by_cases hj2 : j = j₂
      · subst hj2
        rw [List.getElem?_set_self hjlen] at h₂
        cases h₂
      rw [List.getElem?_set_ne hj1] at h₁
      rw [List.getElem?_set_ne hj2] at h₂
      exact hσ.running_inj j₁ j₂ i' h₁ h₂
    · exact hσ.results_ok
    · intro hnone
      exfalso
      rcases hfe : σ.firstErr with _ | e₀ <;> rw [hfe] at hnone <;>
        simp [Option.orElse] at hnone
    · intro hnone
      exfalso
      rcases hfe : σ.firstErr with _ | e₀ <;> rw [hfe] at hnone <;>
        simp [Option.orElse] at hnone
    · intro e' h'
      rcases hfe : σ.firstErr with _ | e₀
      · rw [hfe] at h'
        simp only [Option.orElse, Option.some.injEq] at h'
        subst h'
        exact ⟨i, hti⟩
      · rw [hfe] at h'
        simp only [Option.orElse, Option.some.injEq] at h'
        subst h'
        exact hσ.err_src e₀ hfe
    · rintro ⟨j', h'⟩
      by_cases hjj : j = j'
      · subst hjj
        rw [List.getElem?_set_self hjlen] at h'
        cases h'
      · rw [List.getElem?_set_ne hjj] at h'
        exact hσ.done_next ⟨j', h'⟩
  · -- the awaited task fulfills with v
    rw [htv] at hti
    by_cases hlt : σ.nextIndex < tasks.length
    · -- the lane writes results[i] and claims the next index
      simp only [step, hlj, hti, if_pos hlt]
      constructor <;> (try dsimp only)
      · simpa using hσ.results_len
      · simpa using hσ.lanes_len
      · omega
      · intro j' i' h'
        by_cases hjj : j = j'
        · subst hjj
          rw [List.getElem?_set_self hjlen] at h'
          cases h'
          omega
        · rw [List.getElem?_set_ne hjj] at h'
          have := hσ.running_lt j' i' h'
          omega
      · intro j₁ j₂ i' h₁ h₂
        by_cases hj1 : j = j₁ <;> by_cases hj2 : j = j₂
        · omega
        · subst hj1
          rw [List.getElem?_set_self hjlen] at h₁
          rw [List.getElem?_set_ne hj2] at h₂
          cases h₁
          exact absurd (hσ.running_lt j₂ _ h₂) (by omega)
        · subst hj2
          rw [List.getElem?_set_self hjlen] at h₂
          rw [List.getElem?_set_ne hj1] at h₁
          cases h₂
          exact absurd (hσ.running_lt j₁ _ h₁) (by omega)
        · rw [List.getElem?_set_ne hj1] at h₁
          rw [List.getElem?_set_ne hj2] at h₂
          exact hσ.running_inj j₁ j₂ i' h₁ h₂
      · intro i' v' h'
        by_cases hii : i = i'
        · subst hii
          rw [List.getElem?_set_self hi_res] at h'
          cases h'
          rw [hti]
        · rw [List.getElem?_set_ne hii] at h'
          exact hσ.results_ok i' v' h'
      · intro hnone i' hi'
        by_cases hi'top : i' = σ.nextIndex
        · subst hi'top
          exact Or.inl ⟨j, List.getElem?_set_self hjlen⟩
        · have hi'old : i' < σ.nextIndex := by omega
          rcases hσ.claimed hnone i' hi'old with ⟨j'', h''⟩ | ⟨w, hw, hwt⟩
          · by_cases hjj : j = j''
            · subst hjj
              rw [hlj] at h''
              cases h''
              refine Or.inr ⟨v, ?_, hti⟩
              rw [List.getElem?_set_self hi_res]
            · exact Or.inl ⟨j'', by rw [List.getElem?_set_ne hjj]; exact h''⟩
          · by_cases hii : i = i'
            · subst hii
              refine Or.inr ⟨v, ?_, hti⟩
              rw [List.getElem?_set_self hi_res]
            · exact Or.inr ⟨w, by rw [List.getElem?_set_ne hii]; exact hw, hwt⟩
      · intro hnone j'
        by_cases hjj : j = j'
        · subst hjj
          rw [List.getElem?_set_self hjlen]
          simp
        · rw [List.getElem?_set_ne hjj]
          exact hσ.no_failed hnone j'
      · exact hσ.err_src
      · rintro ⟨j', h'⟩
        by_cases hjj : j = j'
        · subst hjj
          rw [List.getElem?_set_self hjlen] at h'
          cases h'
        · rw [List.getElem?_set_ne hjj] at h'
          have := hσ.done_next ⟨j', h'⟩
          omega
    · -- the counter is exhausted: the lane writes results[i] and finishes
      simp only [step, hlj, hti, if_neg hlt]
      have hnn : tasks.length ≤ σ.nextIndex := by omega
      constructor <;> (try dsimp only)
      · simpa using hσ.results_len
      · simpa using hσ.lanes_len
      · exact hσ.next_le
      · intro j' i' h'
        by_cases hjj : j = j'
        · subst hjj
          rw [List.getElem?_set_self hjlen] at h'
          cases h'
        · rw [List.getElem?_set_ne hjj] at h'
          exact hσ.running_lt j' i' h'
      · intro j₁ j₂ i' h₁ h₂
        by_cases hj1 : j = j₁
        · subst hj1
          rw [List.getElem?_set_self hjlen] at h₁
          cases h₁
        by_cases hj2 : j = j₂
        · subst hj2
          rw [List.getElem?_set_self hjlen] at h₂
          cases h₂
        rw [List.getElem?_set_ne hj1] at h₁
        rw [List.getElem?_set_ne hj2] at h₂
        exact hσ.running_inj j₁ j₂ i' h₁ h₂
      · intro i' v' h'
        by_cases hii : i = i'
        · subst hii
          rw [List.getElem?_set_self hi_res] at h'
          cases h'
          rw [hti]
        · rw [List.getElem?_set_ne hii] at h'
          exact hσ.results_ok i' v' h'
      · intro hnone i' hi'
        rcases hσ.claimed hnone i' hi' with ⟨j'', h''⟩ | ⟨w, hw, hwt⟩
        · by_cases hjj : j = j''
          · subst hjj
            rw [hlj] at h''
            cases h''
            refine Or.inr ⟨v, ?_, hti⟩
            rw [List.getElem?_set_self hi_res]
          · exact Or.inl ⟨j'', by rw [List.getElem?_set_ne hjj]; exact h''⟩
        · by_cases hii : i = i'
          · subst hii
            refine Or.inr ⟨v, ?_, hti⟩
            rw [List.getElem?_set_self hi_res]
          · exact Or.inr ⟨w, by rw [List.getElem?_set_ne hii]; exact hw, hwt⟩
      · intro hnone j'
        by_cases hjj : j = j'
        · subst hjj
          rw [List.getElem?_set_self hjlen]
          simp
        · rw [List.getElem?_set_ne hjj]
          exact hσ.no_failed hnone j'
      · exact hσ.err_src
      · intro _
        exact hnn

theorem inv_foldl {α ε : Type} {tasks : List (Except ε α)} {limit : Nat}
    (sched : List Nat) {σ : DState α ε} (hσ : Inv tasks limit σ) :
    Inv tasks limit (sched.foldl (step tasks) σ) := by
  induction sched generalizing σ with
  | nil => exact hσ
  | cons j rest ih => exact ih (inv_step hσ j)

theorem inv_run {α ε : Type} (tasks : List (Except ε α)) (limit : Nat)
    (sched : List Nat) : Inv tasks limit (run tasks limit sched) :=
  inv_foldl sched (inv_init tasks limit)

theorem reduceOption_map_some {α : Type} (l : List α) :
    (l.map some).reduceOption = l := by
  induction l with
  | nil => rfl
  | cons a t ih => simp [List.reduceOption_cons_of_some, ih]

/-- In a finished run with no rejection recorded, every lane is `done`,
hence the shared counter was exhausted and every task index was claimed. -/
theorem finished_none_counter_exhausted {α ε : Type}
    {tasks : List (Except ε α)} {limit : Nat} {σ : DState α ε}
    (hv : Inv tasks limit σ) (hfin : Finished σ) (hne : σ.firstErr = none)
    (hlim1 : 1 ≤ limit) (hn : 1 ≤ tasks.length) :
    tasks.length ≤ σ.nextIndex := by
  have hlen : 1 ≤ σ.lanes.length := by
    rw [hv.lanes_len]
    simp only [numLanes]
    omega
  have h0 : σ.lanes[0]? = some σ.lanes[0] :=
    List.getElem?_eq_getElem (by omega)
  rcases hfin _ (List.getElem?_mem h0) with hd | hf
  · exact hv.done_next ⟨0, by rw [h0, hd]⟩
  · exact absurd (by rw [h0, hf]) (hv.no_failed hne 0)

/-- C1.  Order preservation: for any task list whose tasks all fulfill, any
`limit ∈ [1, N]` and any completion schedule under which the run finishes,
`withConcurrencyLimit` fulfills with the result array whose i-th element is
the value produced by the i-th input task — regardless of the order in which
the tasks completed. -/
theorem dispatcher_order_preservation {α ε : Type} (tasks : List (Except ε α))
    (limit : Nat) (sched : List Nat) (f : Nat → α)
    (hlim1 : 1 ≤ limit) (hlimN : limit ≤ tasks.length)
    (hok : ∀ (i : Nat) (h : i < tasks.length), tasks[i] = .ok (f i))
    (hfin : Finished (run tasks limit sched)) :
    finalResult (run tasks limit sched) =
      .ok ((List.range tasks.length).map f) := by
  have hv := inv_run tasks limit sched
  set σ := run tasks limit sched with hσdef
  have hne : σ.firstErr = none := by
    rcases hfe : σ.firstErr with _ | e
    · rfl
    · rcases hv.err_src e hfe with ⟨i, hi⟩
      rcases List.getElem?_eq_some_iff.mp hi with ⟨hilt, hieq⟩
      rw [hok i hilt] at hieq
      cases hieq
  have hcnt : tasks.length ≤ σ.nextIndex :=
    finished_none_counter_exhausted hv hfin hne hlim1 (by omega)
  have hres : σ.results = (List.range tasks.length).map fun i => some (f i) := by
    apply List.ext_getElem?
    intro k
    by_cases hk : k < tasks.length
    · rcases hv.claimed hne k (by omega) with ⟨j'', hj''⟩ | ⟨v, hvk, hvt⟩
      · exact absurd (hfin _ (List.getElem?_mem hj'')) (by simp)
      · rw [hvk, List.getElem?_map, List.getElem?_range hk]
        rw [List.getElem?_eq_getElem hk, hok k hk] at hvt
        cases hvt
        rfl
    · rw [List.getElem?_eq_none (by rw [hv.results_len]; omega),
        List.getElem?_eq_none (by simp; omega)]
  rw [finalResult, hne, hres]
  have : ((List.range tasks.length).map fun i => some (f i)) =
      ((List.range tasks.length).map f).map some := by
    rw [List.map_map]
    rfl
  rw [this, reduceOption_map_some]

/-- Witness for C1: three fulfilling tasks, limit 2, a schedule in which
lane 0 finishes two tasks and lane 1 one. -/
theorem dispatcher_order_preservation_witness :
    finalResult (run [Except.ok 0, Except.ok 10, Except.ok 20] 2 [0, 1, 0]) =
      Except.ok (α := List Nat) (ε := Unit)
        ((List.range 3).map fun i => 10 * i) := by
  exact dispatcher_order_preservation _ 2 [0, 1, 0] (fun i => 10 * i)
    (by decide) (by decide) (by decide) (by decide)

/-- C2.  Fail-fast: if one of the dispatched tasks rejects (its promise
rejects, e.g. because its worker exited abnormally) and every other task
fulfills, then once the run finishes the `withConcurrencyLimit` call rejects
with that task's error: no result collection is returned, so results of
already-completed sibling tasks are not surfaced to the caller. -/
theorem dispatcher_fail_fast {α ε : Type} (tasks : List (Except ε α))
    (limit : Nat) (sched : List Nat) (k : Nat) (e : ε)
    (hlim1 : 1 ≤ limit)
    (hk : tasks[k]? = some (.error e))
    (hothers : ∀ (i : Nat) (h : i < tasks.length), i ≠ k → isOk tasks[i] = true)
    (hfin : Finished (run tasks limit sched)) :
    finalResult (run tasks limit sched) = .error e := by
  have hv := inv_run tasks limit sched
  set σ := run tasks limit sched with hσdef
  rcases List.getElem?_eq_some_iff.mp hk with ⟨hklt, hkeq⟩
  rcases hfe : σ.firstErr with _ | e₀
  · exfalso
    have hcnt : tasks.length ≤ σ.nextIndex :=
      finished_none_counter_exhausted hv hfin hfe hlim1 (by omega)
    rcases hv.claimed hfe k (by omega) with ⟨j'', hj''⟩ | ⟨v, _, hvt⟩
    · exact absurd (hfin _ (List.getElem?_mem hj'')) (by simp)
    · rw [hk] at hvt
      cases hvt
  · rcases hv.err_src e₀ hfe with ⟨i, hi⟩
    rcases List.getElem?_eq_some_iff.mp hi with ⟨hilt, hieq⟩
    have hik : i = k := by
      by_contra hik
      have := hothers i hilt hik
      rw [hieq] at this
      simp [isOk] at this
    subst hik
    rw [hkeq] at hieq
    cases hieq
    rw [finalResult, hfe]

/-- Witness for C2: two tasks, the second rejects; limit 1; the single lane
completes task 0 then fails on task 1. -/
theorem dispatcher_fail_fast_witness :
    finalResult (run [Except.ok 7, Except.error 3] 1 [0, 0]) =
      Except.error (α := List Nat) (ε := Nat) 3 := by
  exact dispatcher_fail_fast _ 1 [0, 0] 1 3
    (by decide) (by decide) (by decide) (by decide)

/-- C3.  Exactly `min(limit, tasks.length)` execution lanes are created and,
in every state reachable under any completion schedule, at most
`min(limit, tasks.length)` tasks are in flight; each in-flight task index was
claimed from the shared counter (it is below `nextIndex`, which never exceeds
the number of tasks) and is held by exactly one lane — the work-queue/lane
pattern of `withConcurrencyLimit`. -/
theorem dispatcher_concurrency_bound {α ε : Type} (tasks : List (Except ε α))
    (limit : Nat) (sched : List Nat) :
    (run tasks limit sched).lanes.length = min limit tasks.length ∧
    inFlight (run tasks limit sched) ≤ min limit tasks.length ∧
    (∀ (j i : Nat),
      (run tasks limit sched).lanes[j]? = some (LaneState.running i) →
        i < (run tasks limit sched).nextIndex ∧ i < tasks.length) ∧
    (∀ (j₁ j₂ i : Nat),
      (run tasks limit sched).lanes[j₁]? = some (LaneState.running i) →
        (run tasks limit sched).lanes[j₂]? = some (LaneState.running i) →
          j₁ = j₂) ∧
    (run tasks limit sched).nextIndex ≤ tasks.length := by
  have hv := inv_run tasks limit sched
  refine ⟨hv.lanes_len, ?_, ?_, hv.running_inj, hv.next_le⟩
  · calc inFlight (run tasks limit sched)
        ≤ (run tasks limit sched).lanes.length := List.countP_le_length _
      _ = min limit tasks.length := hv.lanes_len
  · intro j i h
    have h1 := hv.running_lt j i h
    have h2 := hv.next_le
    exact ⟨h1, by omega⟩

end Dispatcher

/-! # Part 2: the DWAR reaction-rule filter

Embedding of src/benchmark/utils/dwar/filterDwarIonization.ts.  JavaScript
strings are modelled as `List Char`; `String.prototype.split`, `startsWith`,
`trim` and field access on the row record are modelled by the functions
below.  A JS object built by repeated `record[name] = value` assignments
resolves a key to the **last** value assigned to it, and a missing key reads
as `undefined`; `getField` models this with an `Option`.  The two public
functions throw on malformed input, modelled by `Except`. -/

namespace Dwar

/-- JavaScript strings, as lists of characters. -/
abbrev Str := List Char

def nlChar : Char := Char.ofNat 10
def tabChar : Char := Char.ofNat 9

/-- `'</column properties>'`, the block-boundary marker. -/
def markerStr : Str := "</column properties>".toList

def ltStr : Str := "<".toList
def kindKey : Str := "kind".toList
def modeKey : Str := "mode".toList
def labelKey : Str := "label".toList
def ionizationVal : Str := "ionization".toList
def positiveVal : Str := "positive".toList
def msgNoMarker : Str := "Could not find </column properties> in DWAR".toList
def msgNoHeader : Str := "Missing column header row in DWAR".toList
def rcOpen : Str := "<rowcount=\"".toList
def rcClose : Str := "\">".toList

/-- `s.startsWith(pre)`. -/
def startsWith : Str → Str → Bool
  | [], _ => true
  | _ :: _, [] => false
  | a :: as, b :: bs => a == b && startsWith as bs

/-- `s.split(c)` — JavaScript split on a one-character separator: empty
pieces are kept, `''.split(c)` is `['']`. -/
def splitOnChar (c : Char) : Str → List Str
  | [] => [[]]
  | a :: as =>
    let rest := splitOnChar c as
    if a == c then [] :: rest
    else
      match rest with
      | [] => [[a]]
      | r :: rs => (a :: r) :: rs

/-- `parts.join('\n')`. -/
def joinNL (parts : List Str) : Str := List.intercalate [nlChar] parts

/-- `s.trim()`. -/
def trimStr (s : Str) : Str :=
  ((s.dropWhile Char.isWhitespace).reverse.dropWhile Char.isWhitespace).reverse

/-- `s.trim() === ''`. -/
def isBlank (s : Str) : Bool := (trimStr s).isEmpty

/-- `s.includes(pat)`. -/
def containsSub (pat : Str) : Str → Bool
  | [] => pat.isEmpty
  | a :: as => startsWith pat (a :: as) || containsSub pat as

/-- The three logical parts `splitDwar` produces (plus the column names). -/
structure DwarParts where
  columnNames : List Str
  preamble : Str
  rows : List Str
  epilogue : Str
deriving DecidableEq, Repr

/-- `splitDwar` (filterDwarIonization.ts lines 81-123): find the line
starting with `</column properties>`; the next line is the column header row
(JS: a missing **or empty** header line is falsy and throws); data rows run
until the first following line starting with `<`; the preamble is everything
up to and including the header row, the epilogue everything from `dataEnd`
on. -/
def splitDwar (dwar : Str) : Except Str DwarParts :=
  let lines := splitOnChar nlChar dwar
  match lines.findIdx? (fun l => startsWith markerStr l) with
  | none => .error msgNoMarker
  | some i =>
    let dataStart := i + 1
    match lines[dataStart]? with
    | none => .error msgNoHeader
    | some headerLine =>
      if headerLine.isEmpty then .error msgNoHeader
      else
        let columnNames := splitOnChar tabChar headerLine
        let rest := lines.drop (dataStart + 1)
        let dataEndOffset :=
          match rest.findIdx? (fun l => startsWith ltStr l) with
          | some k => k
          | none => rest.length
        .ok { columnNames := columnNames
              preamble := joinNL (lines.take (dataStart + 1))
              rows := rest.take dataEndOffset
              epilogue := joinNL (rest.drop dataEndOffset) }

/-- `parseRow` (lines 132-145): split the row on tabs and assign
`record[name] = values[i] ?? ''` for each column name. -/
def parseRow (row : Str) (columnNames : List Str) : List (Str × Str) :=
  let values := splitOnChar tabChar row
  columnNames.mapIdx fun i name => (name, values.getD i [])

/-- Read `record[key]`: the last value assigned to `key`, if any. -/
def getField (record : List (Str × Str)) (key : Str) : Option Str :=
  ((record.filter fun kv => kv.1 == key).getLast?).map Prod.snd

/-- The label collected from one data row by `getPositiveIonizationLabels`:
`record.kind === 'ionization' && record.mode?.includes('positive') &&
record.label` (an absent field reads as `undefined`, an empty label is
falsy). -/
def positiveIonizationLabel (columnNames : List Str) (row : Str) :
    Option Str :=
  let record := parseRow row columnNames
  match getField record kindKey, getField record modeKey,
      getField record labelKey with
  | some k, some m, some l =>
    if k == ionizationVal && containsSub positiveVal m && !l.isEmpty then
      some l
    else none
  | _, _, _ => none

/-- `getPositiveIonizationLabels` (lines 157-174): scan non-blank data rows,
collecting distinct labels in first-seen order (the JS `Set`). -/
def getPositiveIonizationLabels (dwar : Str) : Except Str (List Str) :=
  match splitDwar dwar with
  | .error e => .error e
  | .ok parts =>
    .ok (parts.rows.foldl
      (fun acc row =>
        if isBlank row then acc
        else
          match positiveIonizationLabel parts.columnNames row with
          | some lbl => if acc.contains lbl then acc else acc ++ [lbl]
          | none => acc)
      [])

/-- The row predicate of `filterDwarByIonization` (lines 192-200): drop blank
rows; keep an ionization row iff its label equals `keepLabel`; keep every
other row. -/
def keepRow (columnNames : List Str) (keepLabel : Str) (row : Str) : Bool :=
  if isBlank row then false
  else
    let record := parseRow row columnNames
    if getField record kindKey == some ionizationVal then
      getField record labelKey == some keepLabel
    else true

def digitChar (d : Nat) : Char :=
  match d with
  | 0 => Char.ofNat 48
  | 1 => Char.ofNat 49
  | 2 => Char.ofNat 50
  | 3 => Char.ofNat 51
  | 4 => Char.ofNat 52
  | 5 => Char.ofNat 53
  | 6 => Char.ofNat 54
  | 7 => Char.ofNat 55
  | 8 => Char.ofNat 56
  | _ => Char.ofNat 57

/-- Decimal digits of a number, as produced by JS `String(n)`. -/
def natToDigits (n : Nat) : Str :=
  if _h : n < 10 then [digitChar n]
  else natToDigits (n / 10) ++ [digitChar (n % 10)]
decreasing_by exact Nat.div_lt_self (by omega) (by omega)

def digitVal (c : Char) : Nat := c.toNat - 48

def digitsToNat (ds : Str) : Nat :=
  ds.foldl (fun acc c => 10 * acc + digitVal c) 0

/-- Try to read the regex `/<rowcount="\d+">/` at the start of `s`; on
success return the digit run and the remainder after `">`._ -/
def matchMarker (s : Str) : Option (Str × Str) :=
  if startsWith rcOpen s then
    if ((s.drop rcOpen.length).takeWhile Char.isDigit).isEmpty then none
    else
      if startsWith rcClose ((s.drop rcOpen.length).dropWhile Char.isDigit) then
        some ((s.drop rcOpen.length).takeWhile Char.isDigit,
          ((s.drop rcOpen.length).dropWhile Char.isDigit).drop rcClose.length)
      else none
  else none

/-- `preamble.replace(/<rowcount="\d+">/, '<rowcount="N">')`: replace the
leftmost match, leave the string unchanged when there is none. -/
def replaceRowcountAux (newDigits : Str) : Str → Str
  | [] => []
  | a :: as =>
    match matchMarker (a :: as) with
    | some (_, rest) => rcOpen ++ newDigits ++ rcClose ++ rest
    | none => a :: replaceRowcountAux newDigits as

def replaceRowcount (s : Str) (count : Nat) : Str :=
  replaceRowcountAux (natToDigits count) s

/-- The value of the leftmost `<rowcount="...">` marker in `s`, if any. -/
def rowcountOf : Str → Option Nat
  | [] => none
  | a :: as =>
    match matchMarker (a :: as) with
    | some (digits, _) => some (digitsToNat digits)
    | none => rowcountOf as

/-- `filterDwarByIonization` (lines 186-209). -/
def filterDwarByIonization (dwar keepLabel : Str) : Except Str Str :=
  match splitDwar dwar with
  | .error e => .error e
  | .ok parts =>
    let filteredRows := parts.rows.filter (keepRow parts.columnNames keepLabel)
    let updatedPreamble := replaceRowcount parts.preamble filteredRows.length
    .ok (joinNL (updatedPreamble :: (filteredRows ++ [parts.epilogue])))

theorem startsWith_append (pre t : Str) : startsWith pre (pre ++ t) = true := by
  induction pre with
  | nil => rfl
  | cons a as ih => simp [startsWith, ih]

theorem startsWith_eq_append {pre s : Str} (h : startsWith pre s = true) :
    s = pre ++ s.drop pre.length := by
  induction pre generalizing s with
  | nil => simp
  | cons a as ih =>
    cases s with
    | nil => simp [startsWith] at h
    | cons b bs =>
      simp only [startsWith, Bool.and_eq_true, beq_iff_eq] at h
      rcases h with ⟨rfl, h2⟩
      simpa using ih h2

theorem takeWhile_all_append {p : Char → Bool} {ds : Str}
    (hd : ∀ c ∈ ds, p c = true) {b : Char} (hb : p b = false) (rest : Str) :
    (ds ++ b :: rest).takeWhile p = ds ∧
      (ds ++ b :: rest).dropWhile p = b :: rest := by
  induction ds with
  | nil => simp [List.takeWhile_cons, List.dropWhile_cons, hb]
  | cons c cs ih =>
    have hc := hd c (by simp)
    have ih' := ih fun x hx => hd x (by simp [hx])
    simp [List.takeWhile_cons, List.dropWhile_cons, hc, ih'.1, ih'.2]

theorem matchMarker_eq_some {s d rest : Str}
    (h : matchMarker s = some (d, rest)) :
    s = rcOpen ++ d ++ rcClose ++ rest ∧ d ≠ [] ∧
      ∀ c ∈ d, c.isDigit = true := by
  unfold matchMarker at h
  split at h
  · split at h
    · cases h
    · split at h
      · rename_i hpre hne hcl
        cases h
        have hs := startsWith_eq_append hpre
        have hu := startsWith_eq_append hcl
        refine ⟨?_, by simpa using hne, fun c hc => List.mem_takeWhile_imp hc⟩
        rw [List.append_assoc, List.append_assoc]
        conv_lhs => rw [hs]
        congr 1
        conv_lhs =>
          rw [← List.takeWhile_append_dropWhile (p := Char.isDigit)
            (l := s.drop rcOpen.length)]
        congr 1
      · cases h
  · cases h

theorem matchMarker_append {d : Str} (rest : Str) (hne : d ≠ [])
    (hdig : ∀ c ∈ d, c.isDigit = true) :
    matchMarker (rcOpen ++ d ++ rcClose ++ rest) = some (d, rest) := by
  have hq : Char.isDigit (Char.ofNat 34) = false := by decide
  have hsplit : d ++ rcClose ++ rest = d ++ Char.ofNat 34 :: (Char.ofNat 62 :: rest) := by
    simp [rcClose]
  unfold matchMarker
  rw [show rcOpen ++ d ++ rcClose ++ rest = rcOpen ++ (d ++ rcClose ++ rest) by
    simp]
  rw [if_pos (startsWith_append _ _), List.drop_left]
  rw [hsplit]
  rw [(takeWhile_all_append hdig hq _).1, (takeWhile_all_append hdig hq _).2]
  rw [if_neg (by simpa using hne)]
  rw [show (Char.ofNat 34 :: (Char.ofNat 62 :: rest)) = rcClose ++ rest by
    simp [rcClose]]
  rw [if_pos (startsWith_append _ _), List.drop_left]

theorem digitVal_digitChar {d : Nat} (h : d < 10) :
    digitVal (digitChar d) = d := by
  interval_cases d <;> decide

theorem isDigit_digitChar {d : Nat} (h : d < 10) :
    (digitChar d).isDigit = true := by
  interval_cases d <;> decide

theorem natToDigits_ne_nil (n : Nat) : natToDigits n ≠ [] := by
  rw [natToDigits]
  split <;> simp

theorem natToDigits_all_digit (n : Nat) :
    ∀ c ∈ natToDigits n, c.isDigit = true := by
  induction n using Nat.strong_induction_on with
  | _ n ih =>
    rw [natToDigits]
    split
    · rename_i h
      intro c hc
      simp only [List.mem_singleton] at hc
      subst hc
      exact isDigit_digitChar h
    · rename_i h
      intro c hc
      rcases List.mem_append.mp hc with h1 | h2
      · exact ih (n / 10) (Nat.div_lt_self (by omega) (by omega)) c h1
      · simp only [List.mem_singleton] at h2
        subst h2
        exact isDigit_digitChar (Nat.mod_lt _ (by omega))

theorem digitsToNat_append_singleton (ds : Str) (c : Char) :
    digitsToNat (ds ++ [c]) = 10 * digitsToNat ds + digitVal c := by
  simp [digitsToNat, List.foldl_append]

theorem digitsToNat_natToDigits (n : Nat) :
    digitsToNat (natToDigits n) = n := by
  induction n using Nat.strong_induction_on with
  | _ n ih =>
    rw [natToDigits]
    split
    · rename_i h
      simp [digitsToNat, digitVal_digitChar h]
    · rename_i h
      rw [digitsToNat_append_singleton,
        ih (n / 10) (Nat.div_lt_self (by omega) (by omega)),
        digitVal_digitChar (Nat.mod_lt _ (by omega))]
      omega

/-- Structure of a leftmost-match replace: if the string contains a rowcount
marker, `replaceRowcountAux` rewrites exactly that marker's digits and leaves
everything around it unchanged. -/
theorem replaceRowcountAux_decomp {s : Str} {k : Nat}
    (h : rowcountOf s = some k) (m : Str) :
    ∃ u oldD v, s = u ++ rcOpen ++ oldD ++ rcClose ++ v ∧
      digitsToNat oldD = k ∧
      replaceRowcountAux m s = u ++ rcOpen ++ m ++ rcClose ++ v := by
  induction s with
  | nil => cases h
  | cons a as ih =>
    rcases hmm : matchMarker (a :: as) with _ | ⟨d, rest⟩
    · simp only [rowcountOf, hmm] at h
      rcases ih h with ⟨u, oldD, v, h1, h2, h3⟩
      refine ⟨a :: u, oldD, v, by simp [h1], h2, ?_⟩
      simp only [replaceRowcountAux, hmm]
      simp [h3]
    · simp only [rowcountOf, hmm, Option.some.injEq] at h
      subst h
      rcases matchMarker_eq_some hmm with ⟨h1, _, _⟩
      refine ⟨[], d, rest, by simpa using h1, rfl, ?_⟩
      simp only [replaceRowcountAux, hmm]
      simp

/-- C5.  If the input contains no line starting with `</column properties>`,
both `getPositiveIonizationLabels` and `filterDwarByIonization` fail by
throwing the configuration error rather than returning a value. -/
theorem missing_marker_config_error (d lbl : Str)
    (h : ∀ l ∈ splitOnChar nlChar d, startsWith markerStr l = false) :
    getPositiveIonizationLabels d = .error msgNoMarker ∧
      filterDwarByIonization d lbl = .error msgNoMarker := by
  have hs : splitDwar d = .error msgNoMarker := by
    unfold splitDwar
    dsimp only
    rw [List.findIdx?_eq_none_iff.mpr h]
  constructor
  · unfold getPositiveIonizationLabels
    rw [hs]
  · unfold filterDwarByIonization
    rw [hs]

/-- C4.  For a well-formed rule file (one `splitDwar` accepts, whose header
block carries a `<rowcount="...">` marker, and with no blank data rows) and
any label: `filterDwarByIonization` keeps the data rows as a sublist (every
retained row byte-identical, in order), retains every non-ionization row,
retains an ionization row iff its `label` field equals the requested label,
and rewrites the row-count marker — and nothing else — so that it reads
exactly the number of retained rows. -/
theorem filterDwar_retains_and_rewrites (d keepLabel : Str) (parts : DwarParts)
    (k : Nat) (hsplit : splitDwar d = .ok parts)
    (hmarker : rowcountOf parts.preamble = some k)
    (hrows : ∀ r ∈ parts.rows, isBlank r = false) :
    filterDwarByIonization d keepLabel = .ok (joinNL
        (replaceRowcount parts.preamble
            (parts.rows.filter (keepRow parts.columnNames keepLabel)).length ::
          (parts.rows.filter (keepRow parts.columnNames keepLabel) ++
            [parts.epilogue]))) ∧
      (parts.rows.filter (keepRow parts.columnNames keepLabel)).Sublist
        parts.rows ∧
      (∀ r ∈ parts.rows,
        (getField (parseRow r parts.columnNames) kindKey ==
            some ionizationVal) = false →
          r ∈ parts.rows.filter (keepRow parts.columnNames keepLabel)) ∧
      (∀ r ∈ parts.rows,
        (getField (parseRow r parts.columnNames) kindKey ==
            some ionizationVal) = true →
          (r ∈ parts.rows.filter (keepRow parts.columnNames keepLabel) ↔
            getField (parseRow r parts.columnNames) labelKey =
              some keepLabel)) ∧
      ∃ u oldDigits v,
        parts.preamble = u ++ rcOpen ++ oldDigits ++ rcClose ++ v ∧
        digitsToNat oldDigits = k ∧
        replaceRowcount parts.preamble
            (parts.rows.filter (keepRow parts.columnNames keepLabel)).length =
          u ++ rcOpen ++ natToDigits
              (parts.rows.filter (keepRow parts.columnNames keepLabel)).length
            ++ rcClose ++ v ∧
        digitsToNat (natToDigits
            (parts.rows.filter (keepRow parts.columnNames keepLabel)).length) =
          (parts.rows.filter (keepRow parts.columnNames keepLabel)).length := by
  refine ⟨?_, List.filter_sublist _, ?_, ?_, ?_⟩
  · unfold filterDwarByIonization
    rw [hsplit]
  · intro r hr hni
    rw [List.mem_filter]
    exact ⟨hr, by simp [keepRow, hrows r hr, hni]⟩
  · intro r hr hion
    rw [List.mem_filter]
    simp [keepRow, hrows r hr, hion, hr]
  · rcases replaceRowcountAux_decomp hmarker
        (natToDigits
          (parts.rows.filter (keepRow parts.columnNames keepLabel)).length)
      with ⟨u, oldD, v, h1, h2, h3⟩
    exact ⟨u, oldD, v, h1, h2, h3, digitsToNat_natToDigits _⟩

def wDwar : Str :=
  ("<rowcount=\"3\">\n</column properties>\nkind\tmode\tlabel\nionization\tpositive\tNa\nionization\tpositive\tK\nreaction\tany\tfoo\n<hitlist>").toList

def wParts : DwarParts :=
  { columnNames := [("kind").toList, ("mode").toList, ("label").toList]
    preamble := ("<rowcount=\"3\">\n</column properties>\nkind\tmode\tlabel").toList
    rows := [("ionization\tpositive\tNa").toList,
      ("ionization\tpositive\tK").toList, ("reaction\tany\tfoo").toList]
    epilogue := ("<hitlist>").toList }

def wKeep : Str := ("Na").toList

/-- Witness for C4: a rule file with ionization rows labelled Na and K plus a
reaction row, filtered by Na. -/
theorem filterDwar_retains_and_rewrites_witness :
    filterDwarByIonization wDwar wKeep = .ok (joinNL
        (replaceRowcount wParts.preamble
            (wParts.rows.filter (keepRow wParts.columnNames wKeep)).length ::
          (wParts.rows.filter (keepRow wParts.columnNames wKeep) ++
            [wParts.epilogue]))) ∧
      (wParts.rows.filter (keepRow wParts.columnNames wKeep)).Sublist
        wParts.rows ∧
      (∀ r ∈ wParts.rows,
        (getField (parseRow r wParts.columnNames) kindKey ==
            some ionizationVal) = false →
          r ∈ wParts.rows.filter (keepRow wParts.columnNames wKeep)) ∧
      (∀ r ∈ wParts.rows,
        (getField (parseRow r wParts.columnNames) kindKey ==
            some ionizationVal) = true →
          (r ∈ wParts.rows.filter (keepRow wParts.columnNames wKeep) ↔
            getField (parseRow r wParts.columnNames) labelKey =
              some wKeep)) ∧
      ∃ u oldDigits v,
        wParts.preamble = u ++ rcOpen ++ oldDigits ++ rcClose ++ v ∧
        digitsToNat oldDigits = 3 ∧
        replaceRowcount wParts.preamble
            (wParts.rows.filter (keepRow wParts.columnNames wKeep)).length =
          u ++ rcOpen ++ natToDigits
              (wParts.rows.filter (keepRow wParts.columnNames wKeep)).length
            ++ rcClose ++ v ∧
        digitsToNat (natToDigits
            (wParts.rows.filter (keepRow wParts.columnNames wKeep)).length) =
          (wParts.rows.filter (keepRow wParts.columnNames wKeep)).length :=
  filterDwar_retains_and_rewrites wDwar wKeep wParts 3
    (by decide) (by decide) (by decide)

def wNoMarker : Str := "hello\nworld".toList

/-- Witness for C5: a two-line input with no block-boundary marker. -/
theorem missing_marker_config_error_witness :
    getPositiveIonizationLabels wNoMarker = .error msgNoMarker ∧
      filterDwarByIonization wNoMarker [] = .error msgNoMarker :=
  missing_marker_config_error wNoMarker [] (by decide)

end Dwar

/-! # Part 3: fragmentation-tree precursor and subtree extraction

Embedding of the tree helpers of the quickMs3 script (src/unnamed/part_005):
`findPrecursorNodes` (lines 320-342), `collectDescendantNodes` (349-356),
`buildDescendantNodeSet` (367-377), `extractMasses` (383-391), and the
composition `descendantMasses = extractMasses(buildDescendantNodeSet(
findPrecursorNodes(trees, PRECURSOR_MZ, PRECURSOR_PPM)))` (lines 611-648).

m/z values (JS numbers) are modelled as rationals.  JavaScript compares tree
nodes by **object reference** (`Set.add`/`Set.has` on node objects); in the
embedding a node's reference is made explicit as its *position* in the forest
(the list of child indices from the root), which uniquely identifies one node
object of one fragmentation run.  Each source function therefore appears
twice: once literally on node values, and once position-annotated; the
`..._snd` lemmas prove the annotated version is the same computation with the
reference made explicit. -/

namespace FragTree

/-- `mol.info` — only the `mz` field is read by these helpers. -/
structure MolInfo where
  mz : ℚ
deriving DecidableEq, Repr

/-- A fragmentation-tree node: `{molecules, children}`. -/
inductive TreeNode where
  | node (molecules : List MolInfo) (children : List TreeNode)
deriving Repr

mutual
def TreeNode.beq : TreeNode → TreeNode → Bool
  | .node ms cs, .node ms' cs' => ms == ms' && TreeNode.beqList cs cs'

def TreeNode.beqList : List TreeNode → List TreeNode → Bool
  | [], [] => true
  | a :: as, b :: bs => TreeNode.beq a b && TreeNode.beqList as bs
  | _, _ => false
end

mutual
theorem TreeNode.eq_of_beq : ∀ {a b : TreeNode},
    TreeNode.beq a b = true → a = b
  | .node ms cs, .node ms' cs', h => by
    simp only [TreeNode.beq, Bool.and_eq_true, beq_iff_eq] at h
    rw [h.1, TreeNode.eqList_of_beq h.2]

theorem TreeNode.eqList_of_beq : ∀ {as bs : List TreeNode},
    TreeNode.beqList as bs = true → as = bs
  | [], [], _ => rfl
  | [], _ :: _, h => by simp [TreeNode.beqList] at h
  | _ :: _, [], h => by simp [TreeNode.beqList] at h
  | a :: as, b :: bs, h => by
    simp only [TreeNode.beqList, Bool.and_eq_true] at h
    rw [TreeNode.eq_of_beq h.1, TreeNode.eqList_of_beq h.2]
end

mutual
theorem TreeNode.beq_self : ∀ a : TreeNode, TreeNode.beq a a = true
  | .node ms cs => by
    simp only [TreeNode.beq, Bool.and_eq_true, beq_iff_eq]
    exact ⟨trivial, TreeNode.beqList_self cs⟩

theorem TreeNode.beqList_self : ∀ as : List TreeNode,
    TreeNode.beqList as as = true
  | [] => rfl
  | a :: as => by
    simp only [TreeNode.beqList, Bool.and_eq_true]
    exact ⟨TreeNode.beq_self a, TreeNode.beqList_self as⟩
end

instance : DecidableEq TreeNode := fun a b =>
  if h : TreeNode.beq a b = true then .isTrue (TreeNode.eq_of_beq h)
  else .isFalse fun he => h (he ▸ TreeNode.beq_self a)

def TreeNode.molecules : TreeNode → List MolInfo
  | .node ms _ => ms

def TreeNode.children : TreeNode → List TreeNode
  | .node _ cs => cs

/-- `Math.abs`. -/
def ratAbs (x : ℚ) : ℚ := if x < 0 then -x else x

/-- One molecule matches the precursor target:
`Math.abs(mol.info.mz - mz) <= mol.info.mz * 1e-6 * ppm` — the tolerance is
relative to the **molecule's own** m/z. -/
def molMatches (mz ppm : ℚ) (mol : MolInfo) : Bool :=
  ratAbs (mol.mz - mz) ≤ mol.mz * (1 / 1000000) * ppm

/-- A node matches when any of its molecules does              (the loop over
`node.molecules` in `findPrecursorNodes`). -/
def nodeMatches (mz ppm : ℚ) (n : TreeNode) : Bool :=
  n.molecules.any (molMatches mz ppm)

mutual
/-- The `walk` of `findPrecursorNodes`: record a matching node and do not
recurse into it; otherwise recurse into the children in order. -/
def walkFind (mz ppm : ℚ) : TreeNode → List TreeNode
  | .node ms cs =>
    if nodeMatches mz ppm (.node ms cs) then [.node ms cs]
    else walkFindList mz ppm cs

def walkFindList (mz ppm : ℚ) : List TreeNode → List TreeNode
  | [] => []
  | c :: cs => walkFind mz ppm c ++ walkFindList mz ppm cs
end

/-- `findPrecursorNodes(trees, mz, ppm)` (lines 320-342). -/
def findPrecursorNodes (trees : List TreeNode) (mz ppm : ℚ) :
    List TreeNode :=
  walkFindList mz ppm trees

/-- A position: the path of child indices leading to a node.  In the forest,
`[i]` is the root of `trees[i]` and `p ++ [j]` is child `j` of the node at
`p`.  Distinct positions are distinct node objects: this is the explicit form
of JS reference identity. -/
abbrev Pos := List Nat

/-- The node at a path relative to a given node. -/
def nodeAt : Pos → TreeNode → Option TreeNode
  | [], t => some t
  | i :: p, t =>
    match t.children[i]? with
    | some c => nodeAt p c
    | none => none

/-- The node at a position in the forest. -/
def forestNodeAt (trees : List TreeNode) : Pos → Option TreeNode
  | [] => none
  | i :: p =>
    match trees[i]? with
    | some t => nodeAt p t
    | none => none

mutual
/-- Position-annotated `walk` of `findPrecursorNodes`: the recorded entries
are the positions of the recorded nodes. -/
def walkFindPos (mz ppm : ℚ) (p : Pos) : TreeNode → List Pos
  | .node ms cs =>
    if nodeMatches mz ppm (.node ms cs) then [p]
    else walkFindPosList mz ppm p 0 cs

def walkFindPosList (mz ppm : ℚ) (p : Pos) (i : Nat) :
    List TreeNode → List Pos
  | [] => []
  | c :: cs =>
    walkFindPos mz ppm (p ++ [i]) c ++ walkFindPosList mz ppm p (i + 1) cs
end

/-- Positions of the nodes `findPrecursorNodes` records. -/
def findPrecursorPos (trees : List TreeNode) (mz ppm : ℚ) : List Pos :=
  walkFindPosList mz ppm [] 0 trees

mutual
/-- `collectDescendantNodes(node)` (lines 349-356): every child is pushed,
followed by its own descendants; the node itself is NOT included. -/
def collectDescendantNodes : TreeNode → List TreeNode
  | .node _ cs => collectDescList cs

def collectDescList : List TreeNode → List TreeNode
  | [] => []
  | c :: cs => (c :: collectDescendantNodes c) ++ collectDescList cs
end

mutual
/-- Position-annotated `collectDescendantNodes`. -/
def collectDescendantPos (p : Pos) : TreeNode → List (Pos × TreeNode)
  | .node _ cs => collectDescPosList p 0 cs

def collectDescPosList (p : Pos) (i : Nat) :
    List TreeNode → List (Pos × TreeNode)
  | [] => []
  | c :: cs =>
    ((p ++ [i], c) :: collectDescendantPos (p ++ [i]) c) ++
      collectDescPosList p (i + 1) cs
end

/-- First-occurrence deduplication — the JS `Set`: membership and iteration
follow insertion order, later duplicates are ignored.  `key` is what the
`Set` compares: `id` for a `Set` of numbers, `Prod.fst` (the position, i.e.
the object reference) for a `Set` of tree nodes. -/
def dedupKeepFirst {β : Type} [DecidableEq β] {γ : Type} (key : γ → β) :
    List γ → List γ
  | [] => []
  | a :: as =>
    a :: dedupKeepFirst key (as.filter fun b => key b ≠ key a)
termination_by l => l.length
decreasing_by
  simpa using Nat.lt_succ_of_le (List.length_filter_le _ _)

/-- `buildDescendantNodeSet(precursorNodes)` (lines 367-377), on node
values. -/
def buildDescendantNodeSet (precursorNodes : List TreeNode) :
    List TreeNode :=
  dedupKeepFirst id (precursorNodes.flatMap collectDescendantNodes)

/-- `buildDescendantNodeSet`, position-annotated: the `Set` of node object
references is the set of their positions. -/
def buildDescendantPosSet (precursors : List (Pos × TreeNode)) :
    List (Pos × TreeNode) :=
  dedupKeepFirst Prod.fst
    (precursors.flatMap fun pn => collectDescendantPos pn.1 pn.2)

/-- `extractMasses(nodes)` (lines 383-391): the m/z values of all molecules
of all nodes, deduplicated (the JS `Set`) and sorted ascending. -/
def extractMasses (nodes : List TreeNode) : List ℚ :=
  (dedupKeepFirst id
      (nodes.flatMap fun n => n.molecules.map MolInfo.mz)).mergeSort
    fun a b => a ≤ b

/-- The quickMs3 per-adduct pipeline (lines 611-648): the precursor nodes
with their positions. -/
def precursorPairs (trees : List TreeNode) (mz ppm : ℚ) :
    List (Pos × TreeNode) :=
  (findPrecursorPos trees mz ppm).filterMap fun q =>
    (forestNodeAt trees q).map fun n => (q, n)

/-- `descendantMasses` of the quickMs3 script (line 648):
`extractMasses(buildDescendantNodeSet(findPrecursorNodes(trees, mz, ppm)))`,
with node references made explicit. -/
def descendantMassesOf (trees : List TreeNode) (mz ppm : ℚ) : List ℚ :=
  extractMasses ((buildDescendantPosSet (precursorPairs trees mz ppm)).map
    Prod.snd)

theorem TreeNode.inductionOn {motive : TreeNode → Prop}
    (h : ∀ ms cs, (∀ c ∈ cs, motive c) → motive (TreeNode.node ms cs)) :
    ∀ t, motive t
  | .node ms cs => h ms cs fun c hc => TreeNode.inductionOn h c
termination_by t => sizeOf t
decreasing_by
  have := List.sizeOf_lt_of_mem hc
  simp only [TreeNode.node.sizeOf_spec]
  omega

theorem nodeAt_append (r₁ r₂ : Pos) (t : TreeNode) :
    nodeAt (r₁ ++ r₂) t = (nodeAt r₁ t).bind (nodeAt r₂) := by
  induction r₁ generalizing t with
  | nil => simp [nodeAt]
  | cons i r ih =>
    simp only [List.cons_append, nodeAt]
    rcases t.children[i]? with _ | c
    · rfl
    · exact ih c

theorem forestNodeAt_append {trees : List TreeNode} {p : Pos} {t : TreeNode}
    (h : forestNodeAt trees p = some t) (r : Pos) :
    forestNodeAt trees (p ++ r) = nodeAt r t := by
  cases p with
  | nil => cases h
  | cons i p' =>
    rcases hi : trees[i]? with _ | t₀
    · simp only [forestNodeAt, hi] at h
      cases h
    · simp only [forestNodeAt, hi] at h
      simp only [List.cons_append, forestNodeAt, hi]
      rw [nodeAt_append, h]
      rfl

/-- Membership in the indexed child walk: an entry comes from child `j`
walked at base position `p ++ [i + j]`. -/
theorem mem_walkFindPosList (mz ppm : ℚ) (p : Pos) (q : Pos) :
    ∀ (cs : List TreeNode) (i : Nat),
    q ∈ walkFindPosList mz ppm p i cs ↔
      ∃ j c, cs[j]? = some c ∧ q ∈ walkFindPos mz ppm (p ++ [i + j]) c := by
  intro cs
  induction cs with
  | nil => simp [walkFindPosList]
  | cons c cs ih =>
    intro i
    rw [walkFindPosList, List.mem_append]
    constructor
    · rintro (h | h)
      · exact ⟨0, c, by simp, by simpa using h⟩
      · rcases (ih (i + 1)).mp h with ⟨j, c', hj, hq⟩
        refine ⟨j + 1, c', by simpa using hj, ?_⟩
        rw [show i + (j + 1) = i + 1 + j by omega]
        exact hq
    · rintro ⟨j, c', hj, hq⟩
      cases j with
      | zero =>
        simp only [List.getElem?_cons_zero, Option.some.injEq] at hj
        subst hj
        left
        simpa using hq
      | succ j' =>
        right
        refine (ih (i + 1)).mpr ⟨j', c', by simpa using hj, ?_⟩
        rw [show i + 1 + j' = i + (j' + 1) by omega]
        exact hq

/-- Some molecule of the node at relative path `r` below `t` matches. -/
def MatchesAt (mz ppm : ℚ) (t : TreeNode) (r : Pos) : Prop :=
  ∃ n, nodeAt r t = some n ∧ nodeMatches mz ppm n = true

/-- The node at `r` matches and no proper ancestor of `r` (within `t`)
matches: `r` is an outermost match. -/
def OutermostIn (mz ppm : ℚ) (t : TreeNode) (r : Pos) : Prop :=
  MatchesAt mz ppm t r ∧
    ∀ r₁ r₂, r = r₁ ++ r₂ → r₂ ≠ [] → ¬MatchesAt mz ppm t r₁

theorem matchesAt_cons {mz ppm : ℚ} {ms : List MolInfo} {cs : List TreeNode}
    {j : Nat} {r : Pos} :
    MatchesAt mz ppm (.node ms cs) (j :: r) ↔
      ∃ c, cs[j]? = some c ∧ MatchesAt mz ppm c r := by
  unfold MatchesAt
  simp only [nodeAt, TreeNode.children]
  rcases hj : cs[j]? with _ | c
  · simp
  · simp

theorem outermost_cons {mz ppm : ℚ} {ms : List MolInfo} {cs : List TreeNode}
    {r : Pos} (hroot : nodeMatches mz ppm (.node ms cs) = false) :
    OutermostIn mz ppm (.node ms cs) r ↔
      ∃ j r' c, r = j :: r' ∧ cs[j]? = some c ∧ OutermostIn mz ppm c r' := by
  constructor
  · rintro ⟨hm, houter⟩
    cases r with
    | nil =>
      rcases hm with ⟨n, hn, hmt⟩
      rw [nodeAt] at hn
      cases hn
      rw [hroot] at hmt
      cases hmt
    | cons j r' =>
      rcases matchesAt_cons.mp hm with ⟨c, hj, hmc⟩
      refine ⟨j, r', c, rfl, hj, hmc, ?_⟩
      intro r₁ r₂ hre hne hmat
      exact houter (j :: r₁) r₂ (by rw [hre]; rfl) hne
        (matchesAt_cons.mpr ⟨c, hj, hmat⟩)
  · rintro ⟨j, r', c, rfl, hj, hmc, houter⟩
    refine ⟨matchesAt_cons.mpr ⟨c, hj, hmc⟩, ?_⟩
    intro r₁ r₂ hre hne hmat
    cases r₁ with
    | nil =>
      rcases hmat with ⟨n, hn, hmt⟩
      rw [nodeAt] at hn
      cases hn
      rw [hroot] at hmt
      cases hmt
    | cons j₁ r₁' =>
      simp only [List.cons_append, List.cons.injEq] at hre
      rcases hre with ⟨rfl, hre⟩
      rcases matchesAt_cons.mp hmat with ⟨c', hj', hmat'⟩
      rw [hj] at hj'
      cases hj'
      exact houter r₁' r₂ hre hne hmat'

/-- Membership characterization of the position-annotated precursor walk:
`q` is recorded iff the node there matches and no proper ancestor of it
matches. -/
theorem mem_walkFindPos (mz ppm : ℚ) (t : TreeNode) : ∀ (p q : Pos),
    q ∈ walkFindPos mz ppm p t ↔
      ∃ r, q = p ++ r ∧ OutermostIn mz ppm t r := by
  induction t using TreeNode.inductionOn with
  | h ms cs ih =>
    intro p q
    rw [walkFindPos]
    rcases hroot : nodeMatches mz ppm (.node ms cs) with hf | ht
    · rw [if_neg (by simp)]
      rw [mem_walkFindPosList]
      constructor
      · rintro ⟨j, c, hj, hq⟩
        rcases (ih c (List.getElem?_mem hj) _ _).mp hq with ⟨r', rfl, hout⟩
        refine ⟨j :: r', by simp, ?_⟩
        exact (outermost_cons hroot).mpr ⟨j, r', c, rfl, hj, hout⟩
      · rintro ⟨r, rfl, hout⟩
        rcases (outermost_cons hroot).mp hout with ⟨j, r', c, rfl, hj, hout'⟩
        refine ⟨j, c, by simpa using hj, ?_⟩
        refine (ih c (List.getElem?_mem hj) _ _).mpr ⟨r', by simp, hout'⟩
      -- the `0 + j` index offsets were normalized by `simpa` above
    · rw [if_pos rfl]
      simp only [List.mem_singleton]
      constructor
      · rintro rfl
        refine ⟨[], by simp, ⟨.node ms cs, rfl, hroot⟩, ?_⟩
        intro r₁ r₂ hre hne
        exact absurd hre.symm (by simp [hne])
      · rintro ⟨r, rfl, hm, houter⟩
        cases r with
        | nil => simp
        | cons j r' =>
          exact absurd (⟨.node ms cs, rfl, hroot⟩ : MatchesAt mz ppm _ [])
            (houter [] (j :: r') rfl (by simp))

/-- Some molecule of the node at forest position `q` matches. -/
def ForestMatchesAt (trees : List TreeNode) (mz ppm : ℚ) (q : Pos) : Prop :=
  ∃ m, forestNodeAt trees q = some m ∧ nodeMatches mz ppm m = true

theorem forestMatchesAt_cons {trees : List TreeNode} {mz ppm : ℚ} {j : Nat}
    {c : TreeNode} (hj : trees[j]? = some c) (r : Pos) :
    ForestMatchesAt trees mz ppm (j :: r) ↔ MatchesAt mz ppm c r := by
  unfold ForestMatchesAt MatchesAt
  simp only [forestNodeAt, hj]

theorem forestMatchesAt_nil {trees : List TreeNode} {mz ppm : ℚ} :
    ¬ForestMatchesAt trees mz ppm [] := by
  rintro ⟨m, hm, _⟩
  simp [forestNodeAt] at hm

/-- Forest-level membership characterization: a position is recorded by the
precursor walk iff its node matches and no proper ancestor's node matches. -/
theorem mem_findPrecursorPos (trees : List TreeNode) (mz ppm : ℚ) (q : Pos) :
    q ∈ findPrecursorPos trees mz ppm ↔
      ForestMatchesAt trees mz ppm q ∧
        ∀ q₁ q₂, q = q₁ ++ q₂ → q₂ ≠ [] →
          ¬ForestMatchesAt trees mz ppm q₁ := by
  unfold findPrecursorPos
  rw [mem_walkFindPosList]
  simp only [List.nil_append, Nat.zero_add]
  constructor
  · rintro ⟨j, c, hj, hq⟩
    rcases (mem_walkFindPos mz ppm c _ _).mp hq with ⟨r, rfl, hm, hout⟩
    constructor
    · exact (forestMatchesAt_cons hj r).mpr hm
    · rintro q₁ q₂ he hne
      cases q₁ with
      | nil => exact forestMatchesAt_nil
      | cons j₁ q₁' =>
        simp only [List.singleton_append, List.cons_append,
          List.cons.injEq] at he
        rcases he with ⟨rfl, he⟩
        rw [forestMatchesAt_cons hj]
        exact hout q₁' q₂ he hne
  · rintro ⟨⟨m, hm, hmt⟩, hanc⟩
    cases q with
    | nil => simp [forestNodeAt] at hm
    | cons j r =>
      rcases hj : trees[j]? with _ | c
      · simp only [forestNodeAt, hj] at hm
        cases hm
      · refine ⟨j, c, hj, ?_⟩
        refine (mem_walkFindPos mz ppm c _ _).mpr ⟨r, by simp, ?_, ?_⟩
        · exact (forestMatchesAt_cons hj r).mp ⟨m, hm, hmt⟩
        · intro r₁ r₂ hre hne hmat
          exact hanc (j :: r₁) r₂ (by rw [hre]; rfl) hne
            ((forestMatchesAt_cons hj r₁).mpr hmat)

/-- No recorded precursor position lies strictly below another: the recorded
nodes form an antichain of the forest. -/
theorem findPrecursorPos_antichain (trees : List TreeNode) (mz ppm : ℚ)
    {q q' : Pos} (hq : q ∈ findPrecursorPos trees mz ppm)
    (hq' : q' ∈ findPrecursorPos trees mz ppm) {r : Pos} (hr : r ≠ []) :
    q' ≠ q ++ r := by
  intro he
  rcases (mem_findPrecursorPos trees mz ppm q).mp hq with ⟨hm, _⟩
  rcases (mem_findPrecursorPos trees mz ppm q').mp hq' with ⟨_, hanc⟩
  exact hanc q r he hr hm

theorem walkFind_forall₂_list (mz ppm : ℚ) :
    ∀ (cs : List TreeNode) (p : Pos) (i : Nat),
    (∀ c ∈ cs, ∀ p' : Pos,
      List.Forall₂ (fun n q => ∃ r, q = p' ++ r ∧ nodeAt r c = some n)
        (walkFind mz ppm c) (walkFindPos mz ppm p' c)) →
    List.Forall₂
      (fun n q => ∃ j r, q = p ++ (j :: r) ∧ i ≤ j ∧
        ∃ c, cs[j - i]? = some c ∧ nodeAt r c = some n)
      (walkFindList mz ppm cs) (walkFindPosList mz ppm p i cs) := by
  intro cs
  induction cs with
  | nil =>
    intro p i _
    exact List.Forall₂.nil
  | cons c cs ih =>
    intro p i hyp
    rw [walkFindList, walkFindPosList]
    refine List.rel_append ?_ ?_
    · refine (hyp c (by simp) (p ++ [i])).imp ?_
      rintro n q ⟨r, rfl, hn⟩
      exact ⟨i, r, by simp, le_refl i, c, by simp, hn⟩
    · refine (ih p (i + 1) fun c' hc' p' => hyp c' (by simp [hc']) p').imp ?_
      rintro n q ⟨j, r, rfl, hij, c', hc', hn⟩
      refine ⟨j, r, rfl, by omega, c', ?_, hn⟩
      rw [show j - i = (j - (i + 1)) + 1 by omega, List.getElem?_cons_succ]
      exact hc'

theorem walkFind_forall₂ (mz ppm : ℚ) (t : TreeNode) : ∀ p : Pos,
    List.Forall₂ (fun n q => ∃ r, q = p ++ r ∧ nodeAt r t = some n)
      (walkFind mz ppm t) (walkFindPos mz ppm p t) := by
  induction t using TreeNode.inductionOn with
  | h ms cs ih =>
    intro p
    rw [walkFind, walkFindPos]
    by_cases hm : nodeMatches mz ppm (.node ms cs) = true
    · rw [if_pos hm, if_pos hm]
      exact List.Forall₂.cons ⟨[], by simp, rfl⟩ List.Forall₂.nil
    · rw [if_neg hm, if_neg hm]
      refine (walkFind_forall₂_list mz ppm cs p 0
        fun c hc p' => ih c hc p').imp ?_
      rintro n q ⟨j, r, rfl, _, c, hc, hn⟩
      refine ⟨j :: r, rfl, ?_⟩
      simp only [nodeAt, TreeNode.children]
      rw [show cs[j - 0]? = cs[j]? by simp] at hc
      rw [hc]
      exact hn

/-- The i-th node `findPrecursorNodes` records is the node at the i-th
position `findPrecursorPos` records. -/
theorem findPrecursor_forall₂ (trees : List TreeNode) (mz ppm : ℚ) :
    List.Forall₂ (fun n q => forestNodeAt trees q = some n)
      (findPrecursorNodes trees mz ppm) (findPrecursorPos trees mz ppm) := by
  refine (walkFind_forall₂_list mz ppm trees [] 0
    fun c _ p' => walkFind_forall₂ mz ppm c p').imp ?_
  rintro n q ⟨j, r, rfl, _, c, hc, hn⟩
  simp only [List.nil_append, forestNodeAt]
  rw [show trees[j - 0]? = trees[j]? by simp] at hc
  rw [hc]
  exact hn

/-- The match criterion as the specification's words have it: "within
`targetMz * ppm / 1e6` **of targetMz**" — tolerance relative to the target
mass.  Stated for refinement comparison with `nodeMatches`, which (as in the
source) computes the tolerance from the molecule's own m/z. -/
def nodeMatchesSpec (mz ppm : ℚ) (n : TreeNode) : Bool :=
  n.molecules.any fun mol => ratAbs (mol.mz - mz) ≤ mz * (1 / 1000000) * ppm

/-- Counterexample to C6 as stated: a single (hence topmost) node of mass 60
against target 100 at ppm 500000 is within the claimed tolerance
`targetMz·ppm/1e6 = 50` (|60-100| = 40 ≤ 50), yet `findPrecursorNodes`
returns no node, because the code computes the tolerance from the node's own
mass: `60·ppm/1e6 = 30 < 40`. -/
theorem findPrecursor_tolerance_counterexample :
    nodeMatchesSpec 100 500000 (TreeNode.node [⟨60⟩] []) = true ∧
      findPrecursorNodes [TreeNode.node [⟨60⟩] []] 100 500000 = [] := by
  have habs : ratAbs ((60 : ℚ) - 100) = 40 := by
    rw [ratAbs, if_pos (by norm_num)]
    norm_num
  have hnm : nodeMatches 100 500000 (TreeNode.node [⟨60⟩] []) = false := by
    simp only [nodeMatches, TreeNode.molecules, List.any_cons, List.any_nil,
      Bool.or_false, molMatches]
    rw [decide_eq_false_iff_not, habs]
    norm_num
  constructor
  · simp only [nodeMatchesSpec, TreeNode.molecules, List.any_cons,
      List.any_nil, Bool.or_false, decide_eq_true_eq]
    rw [habs]
    norm_num
  · simp only [findPrecursorNodes, walkFindList, walkFind, hnm]
    simp

/-- C6 (amended: a node matches when any of its masses `m` satisfies
`|m - targetMz| ≤ m * ppm / 1e6`, the tolerance being computed from the
node's own mass, not from the target).  `findPrecursorNodes` performs a
pre-order walk recording each matching node and not recursing into its
subtree: every recorded node sits at a recorded position and matches; no
proper ancestor of a recorded position matches; every outermost-matching
position is recorded; and no recorded node is a descendant of another
recorded node. -/
theorem findPrecursorNodes_outermost (trees : List TreeNode) (mz ppm : ℚ) :
    List.Forall₂ (fun n q => forestNodeAt trees q = some n)
      (findPrecursorNodes trees mz ppm) (findPrecursorPos trees mz ppm) ∧
    (∀ q ∈ findPrecursorPos trees mz ppm,
      ∃ n, forestNodeAt trees q = some n ∧ nodeMatches mz ppm n = true) ∧
    (∀ q ∈ findPrecursorPos trees mz ppm, ∀ q₁ q₂, q = q₁ ++ q₂ → q₂ ≠ [] →
      ∀ m, forestNodeAt trees q₁ = some m → nodeMatches mz ppm m = false) ∧
    (∀ q n, forestNodeAt trees q = some n → nodeMatches mz ppm n = true →
      (∀ q₁ q₂, q = q₁ ++ q₂ → q₂ ≠ [] →
        ∀ m, forestNodeAt trees q₁ = some m → nodeMatches mz ppm m = false) →
      q ∈ findPrecursorPos trees mz ppm) ∧
    (∀ q ∈ findPrecursorPos trees mz ppm,
      ∀ q' ∈ findPrecursorPos trees mz ppm, ∀ r, r ≠ [] → q' ≠ q ++ r) := by
  refine ⟨findPrecursor_forall₂ trees mz ppm, ?_, ?_, ?_, ?_⟩
  · intro q hq
    exact ((mem_findPrecursorPos trees mz ppm q).mp hq).1
  · intro q hq q₁ q₂ he hne m hm
    have h2 := ((mem_findPrecursorPos trees mz ppm q).mp hq).2 q₁ q₂ he hne
    by_contra hmt
    exact h2 ⟨m, hm, by simpa using hmt⟩
  · intro q n hn hmt hanc
    refine (mem_findPrecursorPos trees mz ppm q).mpr ⟨⟨n, hn, hmt⟩, ?_⟩
    rintro q₁ q₂ he hne ⟨m, hm, hmm⟩
    rw [hanc q₁ q₂ he hne m hm] at hmm
    cases hmm
  · intro q hq q' hq' r hr
    exact findPrecursorPos_antichain trees mz ppm hq hq' hr

theorem dedupKeepFirst_subset {β γ : Type} [DecidableEq β] (key : γ → β) :
    ∀ (l : List γ) (x : γ), x ∈ dedupKeepFirst key l → x ∈ l
  | [], x, h => by rw [dedupKeepFirst] at h; exact absurd h (by simp)
  | a :: as, x, h => by
    rw [dedupKeepFirst] at h
    rcases List.mem_cons.mp h with rfl | h'
    · exact List.mem_cons_self _ _
    · exact List.mem_cons_of_mem _
        (List.mem_of_mem_filter (dedupKeepFirst_subset key _ x h'))
termination_by l => l.length
decreasing_by simpa using Nat.lt_succ_of_le (List.length_filter_le _ _)

theorem mem_dedupKeepFirst_key {β γ : Type} [DecidableEq β] (key : γ → β) :
    ∀ (l : List γ) (x : γ), x ∈ l →
      ∃ y ∈ dedupKeepFirst key l, key y = key x
  | [], x, h => absurd h (by simp)
  | a :: as, x, h => by
    rw [dedupKeepFirst]
    rcases List.mem_cons.mp h with rfl | h'
    · exact ⟨x, by simp, rfl⟩
    · by_cases hk : key x = key a
      · exact ⟨a, by simp, hk.symm⟩
      · have hx : x ∈ as.filter fun b => key b ≠ key a :=
          List.mem_filter.mpr ⟨h', by simpa using hk⟩
        rcases mem_dedupKeepFirst_key key _ x hx with ⟨y, hy, hky⟩
        exact ⟨y, List.mem_cons_of_mem _ hy, hky⟩
termination_by l => l.length
decreasing_by simpa using Nat.lt_succ_of_le (List.length_filter_le _ _)

/-- When the key determines the element, the JS `Set` keeps exactly the
elements of the input. -/
theorem mem_dedupKeepFirst {β γ : Type} [DecidableEq β] (key : γ → β)
    (l : List γ) (hfun : ∀ x ∈ l, ∀ y ∈ l, key x = key y → x = y) (x : γ) :
    x ∈ dedupKeepFirst key l ↔ x ∈ l := by
  constructor
  · exact dedupKeepFirst_subset key l x
  · intro h
    rcases mem_dedupKeepFirst_key key l x h with ⟨y, hy, hky⟩
    have hyl := dedupKeepFirst_subset key l y hy
    rwa [hfun y hyl x h hky] at hy

theorem dedupKeepFirst_pairwise {β γ : Type} [DecidableEq β] (key : γ → β) :
    ∀ l : List γ, (dedupKeepFirst key l).Pairwise fun x y => key x ≠ key y
  | [] => by rw [dedupKeepFirst]; exact List.Pairwise.nil
  | a :: as => by
    rw [dedupKeepFirst]
    refine List.Pairwise.cons ?_ (dedupKeepFirst_pairwise key _)
    intro y hy
    have hmem := dedupKeepFirst_subset key _ y hy
    rw [List.mem_filter] at hmem
    intro hkey
    exact absurd hkey.symm (by simpa using hmem.2)
termination_by l => l.length
decreasing_by simpa using Nat.lt_succ_of_le (List.length_filter_le _ _)

theorem mem_collectDescPosList (p : Pos) (q : Pos) (m : TreeNode) :
    ∀ (cs : List TreeNode) (i : Nat),
    (q, m) ∈ collectDescPosList p i cs ↔
      ∃ j c, cs[j]? = some c ∧
        ((q, m) = (p ++ [i + j], c) ∨
          (q, m) ∈ collectDescendantPos (p ++ [i + j]) c) := by
  intro cs
  induction cs with
  | nil => simp [collectDescPosList]
  | cons c cs ih =>
    intro i
    rw [collectDescPosList]
    simp only [List.cons_append, List.mem_append, List.mem_cons]
    constructor
    · rintro (h | h | h)
      · exact ⟨0, c, by simp, Or.inl (by simpa using h)⟩
      · exact ⟨0, c, by simp, Or.inr (by simpa using h)⟩
      · rcases (ih (i + 1)).mp h with ⟨j, c', hj, hor⟩
        refine ⟨j + 1, c', by simpa using hj, ?_⟩
        rw [show i + (j + 1) = i + 1 + j by omega]
        exact hor
    · rintro ⟨j, c', hj, hor⟩
      cases j with
      | zero =>
        simp only [List.getElem?_cons_zero, Option.some.injEq] at hj
        subst hj
        simp only [Nat.add_zero] at hor
        rcases hor with h | h
        · exact Or.inl h
        · exact Or.inr (Or.inl h)
      | succ j' =>
        refine Or.inr (Or.inr ((ih (i + 1)).mpr ⟨j', c', by simpa using hj, ?_⟩))
        rw [show i + 1 + j' = i + (j' + 1) by omega]
        exact hor

/-- The annotated collector gathers exactly the strict descendants: the
nodes at positions `p ++ r` for a nonempty relative path `r`. -/
theorem mem_collectDescendantPos (t : TreeNode) : ∀ (p q : Pos) (m : TreeNode),
    (q, m) ∈ collectDescendantPos p t ↔
      ∃ r, r ≠ [] ∧ q = p ++ r ∧ nodeAt r t = some m := by
  induction t using TreeNode.inductionOn with
  | h ms cs ih =>
    intro p q m
    rw [collectDescendantPos, mem_collectDescPosList]
    simp only [Nat.zero_add]
    constructor
    · rintro ⟨j, c, hj, h | h⟩
      · rw [Prod.mk.injEq] at h
        rcases h with ⟨rfl, rfl⟩
        refine ⟨[j], by simp, by simp, ?_⟩
        simp only [nodeAt, TreeNode.children, hj]
      · rcases (ih c (List.getElem?_mem hj) _ _ _).mp h with ⟨r', hne, rfl, hn⟩
        refine ⟨j :: r', by simp, by simp, ?_⟩
        simp only [nodeAt, TreeNode.children, hj]
        exact hn
    · rintro ⟨r, hne, rfl, hn⟩
      cases r with
      | nil => exact absurd rfl hne
      | cons j r' =>
        simp only [nodeAt, TreeNode.children] at hn
        rcases hj : cs[j]? with _ | c
        · rw [hj] at hn
          simp at hn
        · simp only [hj] at hn
          refine ⟨j, c, hj, ?_⟩
          cases r' with
          | nil =>
            rw [nodeAt] at hn
            cases hn
            exact Or.inl (by simp)
          | cons j' r'' =>
            exact Or.inr ((ih c (List.getElem?_mem hj) _ _ _).mpr
              ⟨j' :: r'', by simp, by simp, hn⟩)

theorem collectDescPosList_map_snd :
    ∀ (cs : List TreeNode),
    (∀ c ∈ cs, ∀ p' : Pos,
      (collectDescendantPos p' c).map Prod.snd = collectDescendantNodes c) →
    ∀ (p : Pos) (i : Nat),
    (collectDescPosList p i cs).map Prod.snd = collectDescList cs
  | [], _, p, i => rfl
  | c :: cs, hyp, p, i => by
    rw [collectDescPosList, collectDescList]
    simp only [List.map_append, List.map_cons]
    rw [hyp c (by simp) (p ++ [i]),
      collectDescPosList_map_snd cs (fun c' hc' p' => hyp c' (by simp [hc']) p')
        p (i + 1)]

/-- Forgetting the positions, the annotated collector is literally
`collectDescendantNodes`. -/
theorem collectDescendantPos_map_snd (t : TreeNode) : ∀ p : Pos,
    (collectDescendantPos p t).map Prod.snd = collectDescendantNodes t := by
  induction t using TreeNode.inductionOn with
  | h ms cs ih =>
    intro p
    rw [collectDescendantPos, collectDescendantNodes]
    exact collectDescPosList_map_snd cs (fun c hc p' => ih c hc p') p 0

theorem mem_buildDescendantPosSet {trees : List TreeNode}
    (precursors : List (Pos × TreeNode))
    (hval : ∀ pn ∈ precursors, forestNodeAt trees pn.1 = some pn.2)
    (q : Pos) (m : TreeNode) :
    (q, m) ∈ buildDescendantPosSet precursors ↔
      forestNodeAt trees q = some m ∧
        ∃ pn ∈ precursors, ∃ r, r ≠ [] ∧ q = pn.1 ++ r := by
  have hflat : ∀ (q' : Pos) (m' : TreeNode),
      (q', m') ∈ precursors.flatMap (fun pn => collectDescendantPos pn.1 pn.2) ↔
        forestNodeAt trees q' = some m' ∧
          ∃ pn ∈ precursors, ∃ r, r ≠ [] ∧ q' = pn.1 ++ r := by
    intro q' m'
    rw [List.mem_flatMap]
    constructor
    · rintro ⟨pn, hpn, hmem⟩
      rcases (mem_collectDescendantPos pn.2 pn.1 q' m').mp hmem
        with ⟨r, hne, rfl, hn⟩
      refine ⟨?_, pn, hpn, r, hne, rfl⟩
      rw [forestNodeAt_append (hval pn hpn) r]
      exact hn
    · rintro ⟨hq, pn, hpn, r, hne, rfl⟩
      refine ⟨pn, hpn, (mem_collectDescendantPos pn.2 pn.1 _ m').mpr
        ⟨r, hne, rfl, ?_⟩⟩
      rw [← forestNodeAt_append (hval pn hpn) r]
      exact hq
  unfold buildDescendantPosSet
  rw [mem_dedupKeepFirst]
  · exact hflat q m
  · rintro ⟨q₁, m₁⟩ h₁ ⟨q₂, m₂⟩ h₂ hk
    simp only at hk
    subst hk
    have e₁ := ((hflat q₁ m₁).mp h₁).1
    have e₂ := ((hflat q₁ m₂).mp h₂).1
    rw [e₁] at e₂
    cases e₂
    rfl

theorem mem_extractMasses (nodes : List TreeNode) (v : ℚ) :
    v ∈ extractMasses nodes ↔
      ∃ n ∈ nodes, ∃ mol ∈ n.molecules, mol.mz = v := by
  unfold extractMasses
  rw [List.mem_mergeSort, mem_dedupKeepFirst id _ fun x _ y _ h => h]
  simp only [List.mem_flatMap, List.mem_map]

theorem extractMasses_sorted (nodes : List TreeNode) :
    (extractMasses nodes).Pairwise (· < ·) := by
  unfold extractMasses
  have htrans : ∀ a b c : ℚ, (decide (a ≤ b)) = true → (decide (b ≤ c)) = true →
      (decide (a ≤ c)) = true := by
    intro a b c h₁ h₂
    simp only [decide_eq_true_eq] at *
    exact le_trans h₁ h₂
  have htotal : ∀ a b : ℚ, ((decide (a ≤ b)) || (decide (b ≤ a))) = true := by
    intro a b
    simp [le_total]
  have hsorted := List.sorted_mergeSort htrans htotal
    (dedupKeepFirst id (nodes.flatMap fun n => n.molecules.map MolInfo.mz))
  have hperm := List.mergeSort_perm
    (dedupKeepFirst id (nodes.flatMap fun n => n.molecules.map MolInfo.mz))
    fun a b => decide (a ≤ b)
  have hnd : (dedupKeepFirst id
      (nodes.flatMap fun n => n.molecules.map MolInfo.mz)).Nodup :=
    (dedupKeepFirst_pairwise id _).imp fun h => h
  have hnd' := hperm.symm.nodup hnd
  refine (hsorted.and hnd').imp ?_
  rintro a b ⟨h₁, h₂⟩
  simp only [decide_eq_true_eq] at h₁
  exact lt_of_le_of_ne h₁ h₂

/-- C7.  `buildDescendantSet` by identity: a pair `(q, m)` is in the
descendant set iff `m` is the node at position `q` and `q` lies strictly
below the position of one of the given precursor nodes — membership is
decided by the parent/children structure (the position, i.e. the object
reference), never by mass value, so a node carrying the same mass on a
branch not below a precursor is excluded.  Forgetting positions, the
annotated collector computes exactly the source's `collectDescendantNodes`;
and `extractMasses` of the set is the union of its nodes' masses,
deduplicated and sorted strictly ascending. -/
theorem descendant_set_by_identity (trees : List TreeNode)
    (precursors : List (Pos × TreeNode))
    (hval : ∀ pn ∈ precursors, forestNodeAt trees pn.1 = some pn.2) :
    (∀ (p : Pos) (t : TreeNode),
      (collectDescendantPos p t).map Prod.snd = collectDescendantNodes t) ∧
    (∀ (q : Pos) (m : TreeNode),
      (q, m) ∈ buildDescendantPosSet precursors ↔
        forestNodeAt trees q = some m ∧
          ∃ pn ∈ precursors, ∃ r, r ≠ [] ∧ q = pn.1 ++ r) ∧
    (∀ v : ℚ,
      v ∈ extractMasses ((buildDescendantPosSet precursors).map Prod.snd) ↔
        ∃ n ∈ (buildDescendantPosSet precursors).map Prod.snd,
          ∃ mol ∈ n.molecules, mol.mz = v) ∧
    (extractMasses
        ((buildDescendantPosSet precursors).map Prod.snd)).Pairwise
      (· < ·) := by
  exact ⟨fun p t => collectDescendantPos_map_snd t p,
    mem_buildDescendantPosSet precursors hval,
    mem_extractMasses _, extractMasses_sorted _⟩

def wA1 : TreeNode := .node [⟨100⟩] []
def wA : TreeNode := .node [⟨300⟩] [wA1]
def wB : TreeNode := .node [⟨100⟩] []
def wRoot : TreeNode := .node [⟨500⟩] [wA, wB]
def wTrees : List TreeNode := [wRoot]
def wPrecursors : List (Pos × TreeNode) := [([0, 0], wA)]

/-- Witness for C7: the spec's identity test tree — root(500) with child
A(300) whose child is A1(100), and a second branch B(100) not under A; the
precursor is A at position `[0, 0]`. -/
theorem descendant_set_by_identity_witness :
    (∀ (p : Pos) (t : TreeNode),
      (collectDescendantPos p t).map Prod.snd = collectDescendantNodes t) ∧
    (∀ (q : Pos) (m : TreeNode),
      (q, m) ∈ buildDescendantPosSet wPrecursors ↔
        forestNodeAt wTrees q = some m ∧
          ∃ pn ∈ wPrecursors, ∃ r, r ≠ [] ∧ q = pn.1 ++ r) ∧
    (∀ v : ℚ,
      v ∈ extractMasses ((buildDescendantPosSet wPrecursors).map Prod.snd) ↔
        ∃ n ∈ (buildDescendantPosSet wPrecursors).map Prod.snd,
          ∃ mol ∈ n.molecules, mol.mz = v) ∧
    (extractMasses
        ((buildDescendantPosSet wPrecursors).map Prod.snd)).Pairwise
      (· < ·) :=
  descendant_set_by_identity wTrees wPrecursors (by
    intro pn hpn
    have h := List.mem_singleton.mp hpn
    subst h
    rfl)

theorem precursorPairs_valid (trees : List TreeNode) (mz ppm : ℚ) :
    ∀ pn ∈ precursorPairs trees mz ppm,
      forestNodeAt trees pn.1 = some pn.2 ∧
        pn.1 ∈ findPrecursorPos trees mz ppm := by
  intro pn hpn
  unfold precursorPairs at hpn
  rw [List.mem_filterMap] at hpn
  rcases hpn with ⟨q, hq, hmap⟩
  rcases hf : forestNodeAt trees q with _ | n'
  · rw [hf] at hmap
    cases hmap
  · rw [hf] at hmap
    simp only [Option.map_some', Option.some.injEq] at hmap
    subst hmap
    exact ⟨hf, hq⟩

/-- C10 (implicit).  The descendant set collects only strict descendants of
the precursor nodes: a precursor's own position is never in the set, so the
precursor's own m/z value `v` is in the extracted subtree mass list iff some
strict descendant of a precursor also carries `v`. -/
theorem descendant_set_excludes_precursors (trees : List TreeNode)
    (mz ppm : ℚ) (p : Pos) (n : TreeNode) (v : ℚ)
    (hp : p ∈ findPrecursorPos trees mz ppm)
    (hn : forestNodeAt trees p = some n)
    (hv : ∃ mol ∈ n.molecules, mol.mz = v) :
    (∀ m, (p, m) ∉ buildDescendantPosSet (precursorPairs trees mz ppm)) ∧
    (v ∈ descendantMassesOf trees mz ppm ↔
      ∃ pn ∈ precursorPairs trees mz ppm, ∃ r m, r ≠ [] ∧
        forestNodeAt trees (pn.1 ++ r) = some m ∧
          ∃ mol ∈ m.molecules, mol.mz = v) := by
  have hval : ∀ pn ∈ precursorPairs trees mz ppm,
      forestNodeAt trees pn.1 = some pn.2 :=
    fun pn hpn => (precursorPairs_valid trees mz ppm pn hpn).1
  constructor
  · intro m hm
    rcases (mem_buildDescendantPosSet _ hval p m).mp hm
      with ⟨_, pn, hpn, r, hne, heq⟩
    exact findPrecursorPos_antichain trees mz ppm
      (precursorPairs_valid trees mz ppm pn hpn).2 hp hne heq
  · unfold descendantMassesOf
    rw [mem_extractMasses]
    constructor
    · rintro ⟨m, hm, mol, hmol, rfl⟩
      rw [List.mem_map] at hm
      rcases hm with ⟨⟨q, m'⟩, hqm, rfl⟩
      rcases (mem_buildDescendantPosSet _ hval q m').mp hqm
        with ⟨hq, pn, hpn, r, hne, rfl⟩
      exact ⟨pn, hpn, r, m', hne, hq, mol, hmol, rfl⟩
    · rintro ⟨pn, hpn, r, m, hne, hq, mol, hmol, rfl⟩
      refine ⟨m, ?_, mol, hmol, rfl⟩
      rw [List.mem_map]
      exact ⟨(pn.1 ++ r, m),
        (mem_buildDescendantPosSet _ hval _ m).mpr ⟨hq, pn, hpn, r, hne, rfl⟩,
        rfl⟩

/-- Witness for C10: in the test tree, the precursor A(300) at `[0, 0]` is
itself excluded from the descendant set, and its mass 300 is in the subtree
mass list only if a strict descendant carries 300 (here none does). -/
theorem descendant_set_excludes_precursors_witness :
    (∀ m, (([0, 0] : Pos), m) ∉
        buildDescendantPosSet (precursorPairs wTrees 300 0)) ∧
    ((300 : ℚ) ∈ descendantMassesOf wTrees 300 0 ↔
      ∃ pn ∈ precursorPairs wTrees 300 0, ∃ r m, r ≠ [] ∧
        forestNodeAt wTrees (pn.1 ++ r) = some m ∧
          ∃ mol ∈ m.molecules, mol.mz = 300) := by
  have hv500 : molMatches 300 0 ⟨500⟩ = false := by
    simp only [molMatches]
    rw [decide_eq_false_iff_not, show ratAbs ((500 : ℚ) - 300) = 200 by
      rw [ratAbs, if_neg (by norm_num)]; norm_num]
    norm_num
  have hv300 : molMatches 300 0 ⟨300⟩ = true := by
    simp only [molMatches]
    rw [decide_eq_true_eq, show ratAbs ((300 : ℚ) - 300) = 0 by
      rw [ratAbs, if_neg (by norm_num)]; norm_num]
    norm_num
  have hv100 : molMatches 300 0 ⟨100⟩ = false := by
    simp only [molMatches]
    rw [decide_eq_false_iff_not, show ratAbs ((100 : ℚ) - 300) = 200 by
      rw [ratAbs, if_pos (by norm_num)]; norm_num]
    norm_num
  have hmA1 : nodeMatches 300 0 (TreeNode.node [⟨100⟩] []) = false := by
    simp [nodeMatches, TreeNode.molecules, hv100]
  have hmA : nodeMatches 300 0
      (TreeNode.node [⟨300⟩] [TreeNode.node [⟨100⟩] []]) = true := by
    simp [nodeMatches, TreeNode.molecules, hv300]
  have hmRoot : nodeMatches 300 0
      (TreeNode.node [⟨500⟩]
        [TreeNode.node [⟨300⟩] [TreeNode.node [⟨100⟩] []],
          TreeNode.node [⟨100⟩] []]) = false := by
    simp [nodeMatches, TreeNode.molecules, hv500]
  have hp : ([0, 0] : Pos) ∈ findPrecursorPos wTrees 300 0 := by
    simp [findPrecursorPos, wTrees, wRoot, wA, wB, wA1, walkFindPosList,
      walkFindPos, hmRoot, hmA, hmA1]
  exact descendant_set_excludes_precursors wTrees 300 0 [0, 0] wA 300 hp rfl
    ⟨⟨300⟩, by simp [wA, TreeNode.molecules], rfl⟩

end FragTree

/-! # Part 4: ranking

Embedding of the per-(adduct × spectrum) ranking of the multi-candidate
benchmark script (src/unnamed/part_003, lines 147-168) and of the
per-molecule reduction `pickBest` of printRanks.ts (lines 172-195).
Scoring itself (`scoreSpectrum`, an external spectral comparator) enters as
an opaque score function.  `Array.prototype.toSorted` and in-place `sort`
are **stable** sorts ordering by the comparator; they are modelled with
`List.mergeSort` and the corresponding ≤-style predicate. -/

namespace Ranking

/-- One scored row: `{candidate, cosine, isSolution}` with
`isSolution := c.name === moleculeName`. -/
structure ScoredRow where
  candidate : String
  cosine : ℚ
  isSolution : Bool
deriving DecidableEq, Repr

/-- The `scored` rows before sorting (script lines 149-162): every candidate
is scored against the fixed (adduct, spectrum) pair. -/
def scoreRows (candidates : List String) (score : String → ℚ)
    (solution : String) : List ScoredRow :=
  candidates.map fun c =>
    { candidate := c, cosine := score c, isSolution := c == solution }

/-- `.toSorted((a, b) => b.cosine - a.cosine)`: stable sort, descending by
cosine — `a` may precede `b` iff the comparator value is ≤ 0, i.e.
`b.cosine ≤ a.cosine`. -/
def rankCandidates (rows : List ScoredRow) : List ScoredRow :=
  rows.mergeSort fun a b => decide (b.cosine ≤ a.cosine)

/-- Lines 166-167: `solutionIdx === -1 ? -1 : solutionIdx + 1`. -/
def solutionRank (rows : List ScoredRow) : Int :=
  match (rankCandidates rows).findIdx? (fun s => s.isSolution) with
  | none => -1
  | some i => (i : Int) + 1

theorem findIdx?_eq_of_unique {α : Type} (p : α → Bool) (l : List α)
    (hcount : l.countP p ≤ 1) (i : Nat) (hi : i < l.length)
    (hpi : p (l.get ⟨i, hi⟩) = true) : l.findIdx? p = some i := by
  induction l generalizing i with
  | nil => simp at hi
  | cons a t ih =>
    cases i with
    | zero =>
      rw [List.findIdx?_cons, if_pos (by simpa using hpi)]
    | succ j =>
      have hjt : j < t.length := by simpa using hi
      have hmem : p (t.get ⟨j, hjt⟩) = true := by simpa using hpi
      have htcount : 1 ≤ t.countP p :=
        List.countP_pos_iff.mpr ⟨t.get ⟨j, hjt⟩, List.get_mem t j hjt, hmem⟩
      have hpa : p a = false := by
        by_contra h
        rw [List.countP_cons, if_pos (by simpa using h)] at hcount
        omega
      rw [List.findIdx?_cons, if_neg (by simp [hpa])]
      have hct : t.countP p ≤ 1 := by
        rw [List.countP_cons, if_neg (by simp [hpa])] at hcount
        simpa using hcount
      rw [List.findIdx?_succ, ih hct j hjt hmem]
      rfl

/-- C8.  For a fixed (adduct, spectrum) pair, the ranking is the stable
descending sort of the scored rows by the metric (a permutation, sorted
descending, rows of equal score kept in input order), and `solutionRank` is
exactly the 1-based index of the row whose candidate name equals the
known-correct name in that sorted list, or -1 when no candidate has that
name. -/
theorem solution_rank_spec (candidates : List String) (score : String → ℚ)
    (solution : String) (hu : candidates.count solution ≤ 1) :
    (rankCandidates (scoreRows candidates score solution)).Pairwise
      (fun a b => b.cosine ≤ a.cosine) ∧
    (rankCandidates (scoreRows candidates score solution)).Perm
      (scoreRows candidates score solution) ∧
    (∀ c : ℚ,
      (rankCandidates (scoreRows candidates score solution)).filter
          (fun r => decide (r.cosine = c)) =
        (scoreRows candidates score solution).filter
          (fun r => decide (r.cosine = c))) ∧
    (solution ∉ candidates →
      solutionRank (scoreRows candidates score solution) = -1) ∧
    (∀ (i : Nat)
      (hil : i < (rankCandidates (scoreRows candidates score solution)).length),
      ((rankCandidates (scoreRows candidates score solution)).get
          ⟨i, hil⟩).candidate = solution →
        solutionRank (scoreRows candidates score solution) = (i : Int) + 1) := by
  have htrans : ∀ a b c : ScoredRow, decide (b.cosine ≤ a.cosine) = true →
      decide (c.cosine ≤ b.cosine) = true →
      decide (c.cosine ≤ a.cosine) = true := by
    intro a b c h₁ h₂
    simp only [decide_eq_true_eq] at *
    exact le_trans h₂ h₁
  have htotal : ∀ a b : ScoredRow,
      (decide (b.cosine ≤ a.cosine) || decide (a.cosine ≤ b.cosine)) = true := by
    intro a b
    simp [le_total]
  have hsol : ∀ r ∈ scoreRows candidates score solution,
      r.isSolution = (r.candidate == solution) := by
    intro r hr
    rcases List.mem_map.mp hr with ⟨c, _, rfl⟩
    rfl
  refine ⟨?_, List.mergeSort_perm _ _, ?_, ?_, ?_⟩
  · exact (List.sorted_mergeSort htrans htotal _).imp
      (by intro a b h; simpa using h)
  · intro c
    set l := scoreRows candidates score solution with hl
    set p : ScoredRow → Bool := fun r => decide (r.cosine = c) with hp
    have hpair : (l.filter p).Pairwise
        fun a b => decide (b.cosine ≤ a.cosine) = true := by
      refine List.pairwise_of_forall_mem_list ?_
      intro a ha b hb
      have ha' := (List.mem_filter.mp ha).2
      have hb' := (List.mem_filter.mp hb).2
      simp only [hp, decide_eq_true_eq] at ha' hb' ⊢
      rw [ha', hb']
    have hsub := List.sublist_mergeSort htrans htotal hpair
      (List.filter_sublist l)
    have hsub₂ : (l.filter p).Sublist ((rankCandidates l).filter p) := by
      have := hsub.filter p
      rwa [List.filter_eq_self.mpr (fun a ha => (List.mem_filter.mp ha).2)]
        at this
    refine (hsub₂.eq_of_length ?_).symm
    have hcnt := (List.mergeSort_perm l
      fun a b => decide (b.cosine ≤ a.cosine)).countP_eq p
    rw [← List.countP_eq_length_filter, ← List.countP_eq_length_filter]
    exact hcnt.symm
  · intro habs
    have hnone : (rankCandidates (scoreRows candidates score solution)).findIdx?
        (fun s => s.isSolution) = none := by
      rw [List.findIdx?_eq_none_iff]
      intro r hr
      have hr' := List.mem_mergeSort.mp hr
      rw [hsol r hr']
      rcases List.mem_map.mp hr' with ⟨c, hc, rfl⟩
      simp only [beq_eq_false_iff_ne, ne_eq]
      rintro rfl
      exact habs hc
    rw [solutionRank, hnone]
  · intro i hil hcand
    have hcount : (rankCandidates (scoreRows candidates score solution)).countP
        (fun s => s.isSolution) ≤ 1 := by
      have hperm : (rankCandidates (scoreRows candidates score solution)).Perm
          (scoreRows candidates score solution) := List.mergeSort_perm _ _
      rw [hperm.countP_eq]
      unfold scoreRows
      rw [List.countP_map]
      show candidates.countP (fun c => c == solution) ≤ 1
      rw [← List.count_eq_countP]
      exact hu
    have hrow : ((rankCandidates (scoreRows candidates score solution)).get
        ⟨i, hil⟩).isSolution = true := by
      have hmem : (rankCandidates (scoreRows candidates score solution)).get
          ⟨i, hil⟩ ∈ rankCandidates (scoreRows candidates score solution) :=
        List.get_mem _ i hil
      rw [hsol _ (List.mem_mergeSort.mp hmem), hcand]
      simp
    rw [solutionRank, findIdx?_eq_of_unique _ _ hcount i hil hrow]

/-- Witness for C8: candidates C1, C2, C3 with distinct scores, the solution
being C3 (the spec's ranking example). -/
theorem solution_rank_spec_witness :
    (rankCandidates (scoreRows ["C1", "C2", "C3"]
        (fun c => if c = "C3" then 9/10 else if c = "C1" then 1/2 else 1/4)
        "C3")).Pairwise (fun a b => b.cosine ≤ a.cosine) ∧
    (rankCandidates (scoreRows ["C1", "C2", "C3"]
        (fun c => if c = "C3" then 9/10 else if c = "C1" then 1/2 else 1/4)
        "C3")).Perm
      (scoreRows ["C1", "C2", "C3"]
        (fun c => if c = "C3" then 9/10 else if c = "C1" then 1/2 else 1/4)
        "C3") ∧
    (∀ c : ℚ,
      (rankCandidates (scoreRows ["C1", "C2", "C3"]
          (fun c => if c = "C3" then 9/10 else if c = "C1" then 1/2 else 1/4)
          "C3")).filter (fun r => decide (r.cosine = c)) =
        (scoreRows ["C1", "C2", "C3"]
          (fun c => if c = "C3" then 9/10 else if c = "C1" then 1/2 else 1/4)
          "C3").filter (fun r => decide (r.cosine = c))) ∧
    ("C3" ∉ ["C1", "C2", "C3"] →
      solutionRank (scoreRows ["C1", "C2", "C3"]
        (fun c => if c = "C3" then 9/10 else if c = "C1" then 1/2 else 1/4)
        "C3") = -1) ∧
    (∀ (i : Nat)
      (hil : i < (rankCandidates (scoreRows ["C1", "C2", "C3"]
        (fun c => if c = "C3" then 9/10 else if c = "C1" then 1/2 else 1/4)
        "C3")).length),
      ((rankCandidates (scoreRows ["C1", "C2", "C3"]
          (fun c => if c = "C3" then 9/10 else if c = "C1" then 1/2 else 1/4)
          "C3")).get ⟨i, hil⟩).candidate = "C3" →
        solutionRank (scoreRows ["C1", "C2", "C3"]
          (fun c => if c = "C3" then 9/10 else if c = "C1" then 1/2 else 1/4)
          "C3") = (i : Int) + 1) :=
  solution_rank_spec ["C1", "C2", "C3"]
    (fun c => if c = "C3" then 9/10 else if c = "C1" then 1/2 else 1/4)
    "C3" (by decide)

/-- One row of the printRanks summary, restricted to the fields `pickBest`
reads for one metric: the molecule, the solution's rank and score under that
metric, and the best candidate's score. -/
structure SummaryEntry where
  molecule : String
  rank : Int
  score : ℚ
  bestScore : ℚ
deriving DecidableEq, Repr

/-- The in-place stable sort comparator of `pickBest`
(`(a, b) => a[rankKey] - b[rankKey] || b[scoreKey] - a[scoreKey]`): `a` may
precede `b` iff the comparator value is ≤ 0 — ascending rank, ties by
descending score. -/
def bestLE (a b : SummaryEntry) : Bool :=
  decide (a.rank < b.rank) ||
    (decide (a.rank = b.rank) && decide (b.score ≤ a.score))

/-- The rows surviving `if (e[bestScoreKey] <= 0) continue`. -/
def keptRows (entries : List SummaryEntry) : List SummaryEntry :=
  entries.filter fun e => decide (0 < e.bestScore)

/-- `pickBest` (printRanks.ts lines 172-195): group the kept rows by
molecule (a JS `Map`, keys in first-insertion order), sort each group by
rank ascending then score descending (stable in-place sort) and take its
first row; finally sort the picked rows by molecule name.  (The source's
final sort uses `localeCompare`; it is modelled by lexicographic `≤`, which
does not affect which rows are picked.) -/
def pickBest (entries : List SummaryEntry) : List SummaryEntry :=
  ((FragTree.dedupKeepFirst id
        ((keptRows entries).map fun e => e.molecule)).filterMap fun m =>
      (((keptRows entries).filter fun e => e.molecule == m).mergeSort
          bestLE).head?).mergeSort
    fun a b => decide (a.molecule ≤ b.molecule)

theorem bestLE_trans : ∀ a b c : SummaryEntry, bestLE a b = true →
    bestLE b c = true → bestLE a c = true := by
  intro a b c h₁ h₂
  simp only [bestLE, Bool.or_eq_true, Bool.and_eq_true,
    decide_eq_true_eq] at h₁ h₂ ⊢
  rcases h₁ with h₁ | ⟨h₁e, h₁s⟩ <;> rcases h₂ with h₂ | ⟨h₂e, h₂s⟩
  · exact Or.inl (lt_trans h₁ h₂)
  · exact Or.inl (by omega)
  · exact Or.inl (by omega)
  · exact Or.inr ⟨by omega, le_trans h₂s h₁s⟩

theorem bestLE_total : ∀ a b : SummaryEntry,
    (bestLE a b || bestLE b a) = true := by
  intro a b
  simp only [bestLE, Bool.or_eq_true, Bool.and_eq_true, decide_eq_true_eq]
  rcases lt_trichotomy a.rank b.rank with h | h | h
  · exact Or.inl (Or.inl h)
  · rcases le_total a.score b.score with hs | hs
    · exact Or.inr (Or.inr ⟨h.symm, hs⟩)
    · exact Or.inl (Or.inr ⟨h, hs⟩)
  · exact Or.inr (Or.inl h)

/-- The head of a stable sort is a minimum of the list under the sort
predicate. -/
theorem mergeSort_head?_min {α : Type} {le : α → α → Bool}
    (htrans : ∀ a b c, le a b = true → le b c = true → le a c = true)
    (htotal : ∀ a b, (le a b || le b a) = true)
    {l : List α} {x : α} (hx : (l.mergeSort le).head? = some x) :
    x ∈ l ∧ ∀ y ∈ l, le x y = true := by
  have hsorted := List.sorted_mergeSort htrans htotal l
  rcases hms : l.mergeSort le with _ | ⟨h₀, rest⟩
  · rw [hms] at hx
    cases hx
  · rw [hms] at hx
    simp only [List.head?_cons, Option.some.injEq] at hx
    have hx' : x = h₀ := hx.symm
    subst hx'
    rw [hms] at hsorted
    have hx_mem : x ∈ l := List.mem_mergeSort.mp (by
      rw [hms]
      exact List.mem_cons_self _ _)
    refine ⟨hx_mem, ?_⟩
    intro y hy
    have hy' : y ∈ l.mergeSort le := List.mem_mergeSort.mpr hy
    rw [hms] at hy'
    rcases List.mem_cons.mp hy' with rfl | hy''
    · simpa using htotal y y
    · exact (List.pairwise_cons.mp hsorted).1 y hy''

theorem pairwise_filterMap_of_pairwise {α β : Type} {R : α → α → Prop}
    {S : β → β → Prop} (f : α → Option β)
    (h : ∀ a b, R a b → ∀ c, f a = some c → ∀ d, f b = some d → S c d) :
    ∀ {l : List α}, l.Pairwise R → (l.filterMap f).Pairwise S := by
  intro l hl
  induction hl with
  | nil => simp
  | cons ha _ ih =>
    rename_i a l' hpl'
    rw [List.filterMap_cons]
    rcases hfa : f a with _ | c
    · exact ih
    · refine List.Pairwise.cons ?_ ih
      intro d hd
      rcases List.mem_filterMap.mp hd with ⟨b, hb, hfb⟩
      exact h a b (ha b hb) c hfa d hfb

theorem mem_keptRows {entries : List SummaryEntry} {e : SummaryEntry} :
    e ∈ keptRows entries ↔ e ∈ entries ∧ 0 < e.bestScore := by
  unfold keptRows
  rw [List.mem_filter]
  simp

/-- What the head of one molecule's sorted group satisfies. -/
theorem pickBest_group_head {entries : List SummaryEntry} {m : String}
    {r : SummaryEntry}
    (h : (((keptRows entries).filter fun e => e.molecule == m).mergeSort
        bestLE).head? = some r) :
    r.molecule = m ∧ r ∈ keptRows entries ∧
      ∀ s ∈ keptRows entries, s.molecule = m → bestLE r s = true := by
  rcases mergeSort_head?_min bestLE_trans bestLE_total h with ⟨hr, hmin⟩
  rw [List.mem_filter] at hr
  refine ⟨by simpa using hr.2, hr.1, ?_⟩
  intro s hs hsm
  exact hmin s (List.mem_filter.mpr ⟨hs, by simpa using hsm⟩)

/-- C9.  `pickBest` discards every row whose best-candidate score is ≤ 0,
returns exactly one row per remaining molecule, and that row has the lowest
`solutionRank` in its group, ties broken by the highest solution score. -/
theorem pick_best_per_molecule_spec (entries : List SummaryEntry) :
    (∀ r ∈ pickBest entries, r ∈ entries ∧ 0 < r.bestScore) ∧
    (∀ m : String,
      (∃ e ∈ entries, e.molecule = m ∧ 0 < e.bestScore) ↔
        ∃ r ∈ pickBest entries, r.molecule = m) ∧
    ((pickBest entries).Pairwise fun a b => a.molecule ≠ b.molecule) ∧
    (∀ r ∈ pickBest entries, ∀ s ∈ entries, s.molecule = r.molecule →
      0 < s.bestScore →
        r.rank ≤ s.rank ∧ (s.rank = r.rank → s.score ≤ r.score)) := by
  have hmemPick : ∀ r : SummaryEntry, r ∈ pickBest entries ↔
      ∃ m ∈ FragTree.dedupKeepFirst id
          ((keptRows entries).map fun e => e.molecule),
        (((keptRows entries).filter fun e => e.molecule == m).mergeSort
            bestLE).head? = some r := by
    intro r
    unfold pickBest
    rw [List.mem_mergeSort, List.mem_filterMap]
  refine ⟨?_, ?_, ?_, ?_⟩
  · intro r hr
    rcases (hmemPick r).mp hr with ⟨m, _, hhead⟩
    exact mem_keptRows.mp (pickBest_group_head hhead).2.1
  · intro m
    constructor
    · rintro ⟨e, he, hem, hbs⟩
      have hek : e ∈ keptRows entries := mem_keptRows.mpr ⟨he, hbs⟩
      have hkeys : m ∈ FragTree.dedupKeepFirst id
          ((keptRows entries).map fun e => e.molecule) := by
        rw [FragTree.mem_dedupKeepFirst id _ fun x _ y _ h => h]
        exact List.mem_map.mpr ⟨e, hek, hem⟩
      have hgrp : e ∈ (keptRows entries).filter fun e => e.molecule == m :=
        List.mem_filter.mpr ⟨hek, by simpa using hem⟩
      rcases hms : ((keptRows entries).filter
          fun e => e.molecule == m).mergeSort bestLE with _ | ⟨r₀, rest⟩
      · exfalso
        have hlen : (((keptRows entries).filter
              fun e => e.molecule == m).mergeSort bestLE).length =
            ((keptRows entries).filter fun e => e.molecule == m).length :=
          List.length_mergeSort _
        rw [hms] at hlen
        have : 0 < ((keptRows entries).filter
            fun e => e.molecule == m).length := List.length_pos.mpr (by
          intro hnil
          rw [hnil] at hgrp
          cases hgrp)
        simp at hlen
        omega
      · have hhead : (((keptRows entries).filter
            fun e => e.molecule == m).mergeSort bestLE).head? = some r₀ := by
          rw [hms]
          rfl
        exact ⟨r₀, (hmemPick r₀).mpr ⟨m, hkeys, hhead⟩,
          (pickBest_group_head hhead).1⟩
    · rintro ⟨r, hr, hrm⟩
      rcases (hmemPick r).mp hr with ⟨_, _, hhead⟩
      have hk := (pickBest_group_head hhead).2.1
      rcases mem_keptRows.mp hk with ⟨he, hbs⟩
      exact ⟨r, he, hrm, hbs⟩
  · have hkeys : (FragTree.dedupKeepFirst id
        ((keptRows entries).map fun e => e.molecule)).Pairwise
        (fun a b => a ≠ b) :=
      (FragTree.dedupKeepFirst_pairwise id _).imp fun h => h
    have hbest : ((FragTree.dedupKeepFirst id
        ((keptRows entries).map fun e => e.molecule)).filterMap fun m =>
          (((keptRows entries).filter fun e => e.molecule == m).mergeSort
              bestLE).head?).Pairwise
        (fun a b => a.molecule ≠ b.molecule) :=
      pairwise_filterMap_of_pairwise
        (fun m => (((keptRows entries).filter
          fun e => e.molecule == m).mergeSort bestLE).head?)
        (fun m₁ m₂ hne c hc d hd => by
          rw [(pickBest_group_head hc).1, (pickBest_group_head hd).1]
          exact hne) hkeys
    unfold pickBest
    have hperm := List.mergeSort_perm
      ((FragTree.dedupKeepFirst id
          ((keptRows entries).map fun e => e.molecule)).filterMap fun m =>
        (((keptRows entries).filter fun e => e.molecule == m).mergeSort
            bestLE).head?)
      fun a b => decide (a.molecule ≤ b.molecule)
    exact (List.Perm.pairwise_iff (fun h => h.symm) hperm).mpr hbest
  · intro r hr s hs hsm hbs
    rcases (hmemPick r).mp hr with ⟨m, _, hhead⟩
    rcases pickBest_group_head hhead with ⟨hrm, _, hmin⟩
    have hb := hmin s (mem_keptRows.mpr ⟨hs, hbs⟩) (by rw [hsm, hrm])
    simp only [bestLE, Bool.or_eq_true, Bool.and_eq_true,
      decide_eq_true_eq] at hb
    rcases hb with hb | ⟨hbe, hbs'⟩
    · exact ⟨le_of_lt hb, fun hst => absurd hst (by omega)⟩
    · exact ⟨le_of_eq hbe, fun _ => hbs'⟩

end Ranking
